import Mathlib

/-!
# Verification of the discoursegraphs core (brackets / ptb / util)

Shallow embedding of the span/chain bracket-encoding algorithm
(`readwrite/brackets.py`), the PTB tree-to-graph builder
(`readwrite/ptb.py`) and the token-index utilities (`util.py`),
together with proofs and refutations of the specification claims.

Conventions:
* Python exceptions become `Except` values (`PyErr.keyError` for a
  missing dict key, `PyErr.indexError` for `list.pop()` on an empty
  list or indexing an empty list).
* Python dicts used only through `__getitem__` / `in` are embedded as
  functions into `Option` / `List`.
* The Python list used as a stack (push via `extend`, pop from the
  end) is embedded with the TOP of the stack at the HEAD of the Lean
  list: `stack.extend(xs)` becomes `xs.reverse ++ stack` and a single
  `stack.pop()` removes the head.
-/

/-! ## util.py: TokenMapper -/

/-- Embedding of `util.TokenMapper`: a pair of mappings built from the
document's token sequence (`id2index` maps token IDs to indices,
`index2id` maps indices to token IDs). -/
structure TokenMapper where
  id2index : String → Option Nat
  index2id : Nat → Option String

/-- Embedding of `TokenMapper.__init__`: iterate over
`enumerate(docgraph.tokens)` and assign both directions; a later
assignment to the same dict key overwrites an earlier one. -/
def TokenMapper.build (tokens : List String) : TokenMapper :=
  tokens.enum.foldl
    (fun tm p =>
      { id2index := fun s => if s = p.2 then some p.1 else tm.id2index s,
        index2id := fun k => if k = p.1 then some p.2 else tm.index2id k })
    ⟨fun _ => none, fun _ => none⟩

/-! ## util.py: get_segment_token_offsets -/

/-- Error conditions of the span-offset computation, using the spec's
names for the two Python exceptions (`KeyError` on an unmapped token
ID is the spec's `UnknownToken`; `min()`/`max()` of an empty list
raises `ValueError`, the spec's `EmptySpan`). -/
inductive OffsetErr where
  | unknownToken
  | emptySpan
deriving DecidableEq

/-- The list comprehension
`[token_map[token_id] for token_id in segment_token_list]`:
a `KeyError` (UnknownToken) aborts the whole computation. -/
def mapTokenIndices (tokenMap : String → Option Nat) :
    List String → Except OffsetErr (List Nat)
  | [] => .ok []
  | tid :: rest =>
    match tokenMap tid with
    | none => .error .unknownToken
    | some i => do
      let is ← mapTokenIndices tokenMap rest
      .ok (i :: is)

/-- Python's `min` over a non-empty list of ints. -/
def pyMin (i : Nat) (rest : List Nat) : Nat := rest.foldl Nat.min i

/-- Python's `max` over a non-empty list of ints. -/
def pyMax (i : Nat) (rest : List Nat) : Nat := rest.foldl Nat.max i

/-- Embedding of `util.get_segment_token_offsets`: map every token ID
through the token map, then return `(min, max)` of the resulting
indices; the empty list makes `min()` raise (EmptySpan). -/
def get_segment_token_offsets (segmentTokenList : List String)
    (tokenMap : String → Option Nat) : Except OffsetErr (Nat × Nat) := do
  let tokenIndices ← mapTokenIndices tokenMap segmentTokenList
  match tokenIndices with
  | [] => .error .emptySpan
  | i :: rest => .ok (pyMin i rest, pyMax i rest)

/-! ## util.py: natural_sort_key -/

/-- One element of the key list produced by `natural_sort_key`:
`int(text) if text.isdigit() else text`. -/
inductive KeyElem where
  | num (n : Nat)
  | str (s : String)
deriving DecidableEq

/-- Group a character list into maximal runs of characters agreeing on
`Char.isDigit` (the run structure produced by
`re.split('([0-9]+)', s)` before empty boundary pieces are added). -/
def digitRuns (l : List Char) : List (List Char) :=
  l.foldr
    (fun c acc =>
      match acc with
      | [] => [[c]]
      | r :: rs =>
        match r.head? with
        | some d => if d.isDigit = c.isDigit then (c :: r) :: rs else [c] :: r :: rs
        | none => [c] :: rs)
    []

/-- Python's `str.isdigit`: non-empty and all characters are digits. -/
def pyIsDigit (s : String) : Bool :=
  !s.isEmpty && s.toList.all Char.isDigit

/-- Embedding of `re.split(INTEGER_RE, s)` where `INTEGER_RE`
captures `([0-9]+)`: the maximal digit/non-digit runs of `s`, with an
empty text piece added before a leading digit run and after a
trailing digit run, and `[""]` for the empty string. -/
def reSplitInteger (s : String) : List String :=
  let rs := (digitRuns s.toList).map String.mk
  let rs :=
    match rs with
    | [] => [""]
    | r :: _ => if pyIsDigit r then "" :: rs else rs
  match rs.getLast? with
  | some r => if pyIsDigit r then rs ++ [""] else rs
  | none => rs

/-- Decimal value of a digit string (applied only to digit runs). -/
def strToNat (s : String) : Nat :=
  s.toList.foldl (fun n c => n * 10 + (c.toNat - 48)) 0

/-- Embedding of `util.natural_sort_key`. -/
def natural_sort_key (s : String) : List KeyElem :=
  (reSplitInteger s).map
    (fun t => if pyIsDigit t then .num (strToNat t) else .str t)

/-- Python 2 comparison of one key element: ints compare numerically,
strings lexicographically, and any int is smaller than any string
(CPython 2 orders values of different types by type name, and
`'int' < 'str'`). -/
def keyElemCmp : KeyElem → KeyElem → Ordering
  | .num a, .num b => compare a b
  | .str a, .str b => compare a b
  | .num _, .str _ => .lt
  | .str _, .num _ => .gt

/-- Python 2 list comparison: lexicographic, shorter prefix first. -/
def keyCmp : List KeyElem → List KeyElem → Ordering
  | [], [] => .eq
  | [], _ :: _ => .lt
  | _ :: _, [] => .gt
  | a :: as', b :: bs' =>
    match keyElemCmp a b with
    | .eq => keyCmp as' bs'
    | o => o

/-- The non-strict comparison used to sort strings by
`natural_sort_key`. -/
def natLeB (a b : String) : Bool :=
  keyCmp (natural_sort_key a) (natural_sort_key b) ≠ .gt

/-- `natLeB` as a decidable relation. -/
def natLe (a b : String) : Prop := natLeB a b = true

instance : DecidableRel natLe := fun a b => decEq (natLeB a b) true

/-- Embedding of Python's stable `sorted(xs, key=natural_sort_key)`
(insertion sort with a non-strict comparison is stable). -/
def sortedNatural (l : List String) : List String :=
  l.insertionSort natLe

/-! ## brackets.py: data model and bracket mappings -/

/-- Python runtime errors raised by the brackets code: `KeyError` for
a missing dict key, `IndexError` for `list.pop()` on an empty list or
`l[0]` / `l[-1]` on an empty list. -/
inductive PyErr where
  | keyError
  | indexError
deriving DecidableEq

/-- The slice of a document graph consumed by the brackets module.
`tokens` is `docgraph.tokens` (token IDs in document order) and
`surface` is `docgraph.get_token`.  The remaining two fields stand for
collaborators whose code is outside the sources at hand:
`pointingChains`, modelled from the spec, is the output of
`dg.get_pointing_chains(docgraph)` ("a set of chains, each chain an
ordered list of markable identities"); `span`, modelled from the spec,
is `spanstring2tokens(docgraph, docgraph.node[m][ns+':span'])`, which
"resolves its span's token list" as stored in the markable's span
attribute ("an ordered or unordered list of token identities"). -/
structure DocGraph where
  tokens : List String
  surface : String → String
  pointingChains : List (List String)
  span : String → List String

/-- Append `v` to the list stored for key `k` in a
`defaultdict(list)`. -/
def appendAt (f : String → List String) (k v : String) : String → List String :=
  fun x => if x = k then f x ++ [v] else f x

/-- The `markable2chain` loop of `gen_bracket_mappings`:
`chain_id = chain[0]` (an `IndexError` on an empty chain), then every
markable of the chain is mapped to that id; later assignments
overwrite earlier ones. -/
def buildMarkable2Chain (chains : List (List String)) :
    Except PyErr (String → Option String) :=
  chains.foldlM
    (fun acc chain =>
      match chain with
      | [] => .error .indexError
      | c0 :: _ =>
        .ok (chain.foldl (fun a m => fun x => if x = m then some c0 else a x) acc))
    (fun _ => none)

/-- The `opening`/`closing` loop of `gen_bracket_mappings`: for each
markable (in the sorted order), resolve its span tokens and append the
markable to `opening[span_tokens[0]]` and `closing[span_tokens[-1]]`;
an empty span raises `IndexError`. -/
def buildBoundaries (g : DocGraph) (markables : List String) :
    Except PyErr ((String → List String) × (String → List String)) :=
  markables.foldlM
    (fun oc m =>
      match g.span m with
      | [] => .error .indexError
      | t0 :: rest =>
        .ok (appendAt oc.1 t0 m,
             appendAt oc.2 ((t0 :: rest).getLast (List.cons_ne_nil t0 rest)) m))
    (fun _ => [], fun _ => [])

/-- Embedding of `brackets.gen_bracket_mappings`: markables are the
flattened pointing chains sorted by `natural_sort_key`; returns the
`opening` map, the `closing` map and the markable-to-chain map. -/
def gen_bracket_mappings (g : DocGraph) :
    Except PyErr ((String → List String) × (String → List String) ×
      (String → Option String)) := do
  let markables := sortedNatural g.pointingChains.flatten
  let markable2chain ← buildMarkable2Chain g.pointingChains
  let (opening, closing) ← buildBoundaries g markables
  .ok (opening, closing, markable2chain)

/-! ## brackets.py: closing strings and the rendering scan -/

/-- `[stack.pop() for i in range(n)]`, one pop at a time (top of the
stack is the head of the list): returns the popped elements in pop
order and the remaining stack, or `IndexError` when the stack runs
out. -/
def popN : Nat → List String → Except PyErr (List String × List String)
  | 0, stack => .ok ([], stack)
  | _ + 1, [] => .error .indexError
  | n + 1, m :: stack => do
    let (popped, rest) ← popN n stack
    .ok (m :: popped, rest)

/-- `u''.join(u']_{{{}}}'.format(markable2chain[closing_id]) ...)`:
format one close-bracket group per popped markable, in pop order; a
markable missing from `markable2chain` raises `KeyError`. -/
def formatClosing (markable2chain : String → Option String) :
    List String → Except PyErr String
  | [] => .ok ""
  | m :: ms =>
    match markable2chain m with
    | none => .error .keyError
    | some c => do
      let rest ← formatClosing markable2chain ms
      .ok ("]_\x7b" ++ c ++ "\x7d" ++ rest)

/-- Embedding of `brackets.gen_closing_string`: pop as many markables
as `closing[token_id]` has entries and emit their close-bracket
groups; also returns the stack left after the pops (in the source the
pops mutate `stack` in place). -/
def gen_closing_string (closing : String → List String)
    (markable2chain : String → Option String) (tokenId : String)
    (stack : List String) : Except PyErr (String × List String) := do
  let (popped, stack') ← popN (closing tokenId).length stack
  let s ← formatClosing markable2chain popped
  .ok (s, stack')

/-- The body of the token loop of `gen_bracketed_output`: the chunk of
output contributed by one token, and the stack after processing it.
`token_id in opening` on the `defaultdict` is non-emptiness of the
stored list. -/
def processToken (g : DocGraph) (opening closing : String → List String)
    (markable2chain : String → Option String) (tokenId : String)
    (stack : List String) : Except PyErr (String × List String) :=
  let tokenStr := g.surface tokenId
  if opening tokenId ≠ [] then
    let numOpening := (opening tokenId).length
    let stack1 := (opening tokenId).reverse ++ stack
    let openingStr := String.mk (List.replicate numOpening '[')
    if closing tokenId ≠ [] then do
      let (closingStr, stack2) ← gen_closing_string closing markable2chain tokenId stack1
      .ok (openingStr ++ tokenStr ++ closingStr ++ " ", stack2)
    else
      .ok (openingStr ++ tokenStr ++ " ", stack1)
  else if closing tokenId ≠ [] then do
    let (closingStr, stack2) ← gen_closing_string closing markable2chain tokenId stack
    .ok (tokenStr ++ closingStr ++ " ", stack2)
  else
    .ok (tokenStr ++ " ", stack)

/-- The token loop of `gen_bracketed_output` over a token list,
threading the stack; returns the concatenated output chunks and the
final stack. -/
def scanTokens (g : DocGraph) (opening closing : String → List String)
    (markable2chain : String → Option String) :
    List String → List String → Except PyErr (String × List String)
  | [], stack => .ok ("", stack)
  | tid :: rest, stack => do
    let (chunk, stack') ← processToken g opening closing markable2chain tid stack
    let (restStr, finalStack) ← scanTokens g opening closing markable2chain rest stack'
    .ok (chunk ++ restStr, finalStack)

/-- Embedding of `brackets.gen_bracketed_output`: compute the bracket
mappings, scan the document's tokens, and return the accumulated
string.  The final stack is dropped without inspection, exactly as in
the source (the `stack` variable is simply unused after the loop). -/
def gen_bracketed_output (g : DocGraph) : Except PyErr String := do
  let (opening, closing, markable2chain) ← gen_bracket_mappings g
  let (retStr, _) ← scanTokens g opening closing markable2chain g.tokens []
  .ok retStr

/-! ## ptb.py: tree-to-graph construction -/

/-- The closed set of edge-type tags (`dg.EdgeTypes`); the PTB
builder uses `dominance_relation` and `spanning_relation`. -/
inductive EdgeType where
  | dominance
  | spanning
  | pointing
  | precedence
deriving DecidableEq

/-- The attribute dict of a graph node, restricted to the keys the
PTB builder reads and writes (`label` and the namespaced `token`
key); a missing key is `none`. -/
structure NodeAttrs where
  label : Option String
  token : Option String
deriving DecidableEq

mutual

/-- An externally parsed tree (`nltk.tree.Tree`), polymorphic over
internal nodes (label plus ordered children) and terminal leaf
strings, as in the tree-reader interface the builder consumes. -/
inductive PTree where
  | node (label : String) (children : PTreeList)
  | leaf (s : String)
deriving DecidableEq

/-- An ordered list of child trees (a separate mutual inductive so
that the tree recursion below is structural and kernel-reducible). -/
inductive PTreeList where
  | nil
  | cons (t : PTree) (ts : PTreeList)
deriving DecidableEq

end

/-- Embedding of `PTBDocumentGraph`: the incrementing node-id counter
`_node_id`, the `sentences` and `tokens` bookkeeping lists, and the
underlying multigraph's node-attribute map and edge list.  Nodes are
kept in creation order; the synthetic root is node `0`. -/
structure PTBDocumentGraph where
  nodeId : Nat
  sentences : List Nat
  tokens : List Nat
  nodes : List (Nat × NodeAttrs)
  edges : List (Nat × Nat × EdgeType)
deriving DecidableEq

/-- Merge an incoming attribute dict into an existing one
(`networkx` `add_node` on an existing node updates its attributes;
keys present in the update win). -/
def mergeAttrs (old upd : NodeAttrs) : NodeAttrs :=
  { label := upd.label <|> old.label, token := upd.token <|> old.token }

/-- Update the attributes of node `id` in place. -/
def updateNodeAttrs (nodes : List (Nat × NodeAttrs)) (id : Nat)
    (f : NodeAttrs → NodeAttrs) : List (Nat × NodeAttrs) :=
  nodes.map (fun p => if p.1 = id then (p.1, f p.2) else p)

/-- `networkx` `add_node(id, attr_dict)`: update the attributes if the
node exists, otherwise append a fresh node. -/
def addNode (nodes : List (Nat × NodeAttrs)) (id : Nat) (attrs : NodeAttrs) :
    List (Nat × NodeAttrs) :=
  if nodes.any (fun p => p.1 = id) then
    updateNodeAttrs nodes id (fun old => mergeAttrs old attrs)
  else
    nodes ++ [(id, attrs)]

/-- `networkx` `add_edge` creates missing endpoints with an empty
attribute dict. -/
def ensureNode (nodes : List (Nat × NodeAttrs)) (id : Nat) :
    List (Nat × NodeAttrs) :=
  if nodes.any (fun p => p.1 = id) then nodes else nodes ++ [(id, ⟨none, none⟩)]

/-- `self.add_edge(u, v, edge_type=et)` on the multigraph: ensure both
endpoints exist, then append the edge (parallel edges allowed). -/
def addEdgeSt (st : PTBDocumentGraph) (u v : Nat) (et : EdgeType) :
    PTBDocumentGraph :=
  { st with nodes := ensureNode (ensureNode st.nodes u) v,
            edges := st.edges ++ [(u, v, et)] }

/-- `self.node[id]['label'] = l` (the node always exists at the call
sites: it was created by the preceding `add_edge`/`add_node`). -/
def setNodeLabel (nodes : List (Nat × NodeAttrs)) (id : Nat) (l : String) :
    List (Nat × NodeAttrs) :=
  updateNodeAttrs nodes id (fun a => { a with label := some l })

/-- The `for subtree in tree` loop of `_parse_sentencetree`: allocate
the next node id for each child; an internal child gets a `label`
attribute and a dominance edge and is recursed into; a leaf child gets
`label` and `token` attributes, a spanning edge, and its id appended
to `self.tokens`.  The recursive `self._parse_sentencetree(subtree)`
call is inlined (its body: write the label of the current node
`self._node_id` — here the freshly allocated `id` — then loop over the
subtree's children with `id` as the parent). -/
def parseSubtrees (st : PTBDocumentGraph) (rootNodeId : Nat) :
    PTreeList → PTBDocumentGraph
  | .nil => st
  | .cons t rest =>
    let id := st.nodeId + 1
    match t with
    | .node l cs =>
      let st1 := { st with nodeId := id, nodes := addNode st.nodes id ⟨some l, none⟩ }
      let st2 := addEdgeSt st1 rootNodeId id .dominance
      let st3 := parseSubtrees { st2 with nodes := setNodeLabel st2.nodes id l } id cs
      parseSubtrees st3 rootNodeId rest
    | .leaf s =>
      let st1 : PTBDocumentGraph :=
        { st with
          nodeId := id
          tokens := st.tokens ++ [id]
          nodes := addNode st.nodes id ⟨some s, some s⟩ }
      let st2 := addEdgeSt st1 rootNodeId id .spanning
      parseSubtrees st2 rootNodeId rest

/-- Embedding of `PTBDocumentGraph._parse_sentencetree`, taking the
current tree's label and children (the function is only ever applied
to `nltk.tree.Tree` values): write the label onto the current node
`self._node_id` and process the children. -/
def parse_sentencetree (st : PTBDocumentGraph) (label : String)
    (children : PTreeList) : PTBDocumentGraph :=
  parseSubtrees { st with nodes := setNodeLabel st.nodes st.nodeId label }
    st.nodeId children

/-- Embedding of `PTBDocumentGraph._add_sentence`: record the sentence
root id, link it to the document root with a spanning edge, parse the
tree, and advance the id counter once more. -/
def add_sentence (st : PTBDocumentGraph) (sent : String × PTreeList) :
    PTBDocumentGraph :=
  let st := { st with sentences := st.sentences ++ [st.nodeId] }
  let st := addEdgeSt st 0 st.nodeId .spanning
  let st := parse_sentencetree st sent.1 sent.2
  { st with nodeId := st.nodeId + 1 }

/-- The state after the `__init__` preamble: the synthetic root node
`0` with label `ns + ':root_node'` (default namespace `ptb`), empty
`sentences`/`tokens`, and `_node_id = 1`.  (The base-class
`DiscourseDocumentGraph.__init__` and the removal of its default root
are outside the sources at hand; modelled from the spec: "allocate
synthetic root node (identity = reserved constant, e.g. position 0),
tagged with the document's namespace layer".) -/
def initPTBGraph : PTBDocumentGraph :=
  { nodeId := 1, sentences := [], tokens := [],
    nodes := [(0, ⟨some "ptb:root_node", none⟩)], edges := [] }

/-- The `if limit:` truncation of `__init__`: Python's truthiness
makes both `None` and `0` fall into the parse-all branch; a non-zero
limit `n` slices off the first `n` parsed sentences. -/
def limitSentences (sents : List (String × PTreeList)) (limit : Option Nat) :
    List (String × PTreeList) :=
  match limit with
  | some n => if n ≠ 0 then sents.take n else sents
  | none => sents

/-- Embedding of `PTBDocumentGraph.__init__` from the list of parsed
sentences delivered by the corpus reader (each an `nltk.tree.Tree`,
i.e. a label with an ordered list of children). -/
def PTBDocumentGraph.ofSentences (sents : List (String × PTreeList))
    (limit : Option Nat) : PTBDocumentGraph :=
  (limitSentences sents limit).foldl add_sentence initPTBGraph

mutual

/-- The leaf strings of a tree, left to right. -/
def PTree.leaves : PTree → List String
  | .leaf s => [s]
  | .node _ cs => cs.leaves

/-- The leaf strings of a list of trees, left to right. -/
def PTreeList.leaves : PTreeList → List String
  | .nil => []
  | .cons t ts => t.leaves ++ ts.leaves

end

/-- The leaf strings of a parsed-sentence list, left to right. -/
def sentenceLeaves (sents : List (String × PTreeList)) : List String :=
  (sents.map (fun s => s.2.leaves)).flatten

/-! ## Claims about get_segment_token_offsets (C3, C9) -/

/-! ## Lemmas: get_segment_token_offsets -/

theorem exceptBind_ok {α β ε : Type} (a : α) (f : α → Except ε β) :
    (Except.ok a >>= f) = f a := rfl

theorem exceptBind_err {α β ε : Type} (e : ε) (f : α → Except ε β) :
    ((Except.error e : Except ε α) >>= f) = Except.error e := rfl

/-- If some token ID is unmapped, the index comprehension raises
`UnknownToken`. -/
theorem mapTokenIndices_error_of_none (tokenMap : String → Option Nat)
    (l : List String) (h : ∃ id ∈ l, tokenMap id = none) :
    mapTokenIndices tokenMap l = .error .unknownToken := by
  induction l with
  | nil => simp at h
  | cons x xs ih =>
    obtain ⟨id, hmem, hnone⟩ := h
    simp only [List.mem_cons] at hmem
    rcases hmem with rfl | hmem
    · simp [mapTokenIndices, hnone]
    · cases hx : tokenMap x with
      | none => simp [mapTokenIndices, hx]
      | some i =>
        simp [mapTokenIndices, hx, ih ⟨id, hmem, hnone⟩, exceptBind_err]

/-- If every token ID is mapped, the index comprehension returns the
mapped indices in order. -/
theorem mapTokenIndices_ok_of_all (tokenMap : String → Option Nat)
    (l : List String) (h : ∀ id ∈ l, (tokenMap id).isSome) :
    mapTokenIndices tokenMap l = .ok (l.filterMap tokenMap) := by
  induction l with
  | nil => simp [mapTokenIndices]
  | cons x xs ih =>
    have hx := h x (by simp)
    cases hx' : tokenMap x with
    | none => rw [hx'] at hx; simp at hx
    | some i =>
      have hih := ih (fun id hid => h id (by simp [hid]))
      simp [mapTokenIndices, hx', hih, List.filterMap_cons, exceptBind_ok]

theorem length_filterMap_of_all (tokenMap : String → Option Nat)
    (l : List String) (h : ∀ id ∈ l, (tokenMap id).isSome) :
    (l.filterMap tokenMap).length = l.length := by
  induction l with
  | nil => simp
  | cons x xs ih =>
    have hx := h x (by simp)
    cases hx' : tokenMap x with
    | none => rw [hx'] at hx; simp at hx
    | some i =>
      simp [List.filterMap_cons, hx', ih (fun id hid => h id (by simp [hid]))]

/-- `min()` over a non-empty list returns one of its elements. -/
theorem pyMin_mem (i : Nat) (rest : List Nat) : pyMin i rest ∈ i :: rest := by
  induction rest generalizing i with
  | nil => simp [pyMin]
  | cons a as ih =>
    have h := ih (Nat.min i a)
    simp only [pyMin, List.foldl_cons] at h ⊢
    rcases List.mem_cons.1 h with hm | hm
    · rw [hm]; simp only [Nat.min_def]; split <;> simp
    · simp [hm]

/-- `min()` is a lower bound for the seed element. -/
theorem pyMin_le_head (i : Nat) (rest : List Nat) : pyMin i rest ≤ i := by
  induction rest generalizing i with
  | nil => simp [pyMin]
  | cons a as ih =>
    have h := ih (Nat.min i a)
    simp only [pyMin, List.foldl_cons] at h ⊢
    exact le_trans h (Nat.min_le_left i a)

/-- `min()` is a lower bound for every listed element. -/
theorem pyMin_le_mem (i : Nat) (rest : List Nat) :
    ∀ x ∈ rest, pyMin i rest ≤ x := by
  induction rest generalizing i with
  | nil => intro x hx; simp at hx
  | cons a as ih =>
    intro x hx
    simp only [pyMin, List.foldl_cons]
    rcases List.mem_cons.1 hx with rfl | hx'
    · exact le_trans (pyMin_le_head _ _) (Nat.min_le_right i x)
    · exact ih (Nat.min i a) x hx'

/-- `max()` over a non-empty list returns one of its elements. -/
theorem pyMax_mem (i : Nat) (rest : List Nat) : pyMax i rest ∈ i :: rest := by
  induction rest generalizing i with
  | nil => simp [pyMax]
  | cons a as ih =>
    have h := ih (Nat.max i a)
    simp only [pyMax, List.foldl_cons] at h ⊢
    rcases List.mem_cons.1 h with hm | hm
    · rw [hm]; simp only [Nat.max_def]; split <;> simp
    · simp [hm]

/-- `max()` is an upper bound for the seed element. -/
theorem le_pyMax_head (i : Nat) (rest : List Nat) : i ≤ pyMax i rest := by
  induction rest generalizing i with
  | nil => simp [pyMax]
  | cons a as ih =>
    have h := ih (Nat.max i a)
    simp only [pyMax, List.foldl_cons] at h ⊢
    exact le_trans (Nat.le_max_left i a) h

/-- `max()` is an upper bound for every listed element. -/
theorem le_pyMax_mem (i : Nat) (rest : List Nat) :
    ∀ x ∈ rest, x ≤ pyMax i rest := by
  induction rest generalizing i with
  | nil => intro x hx; simp at hx
  | cons a as ih =>
    intro x hx
    simp only [pyMax, List.foldl_cons]
    rcases List.mem_cons.1 hx with rfl | hx'
    · exact le_trans (Nat.le_max_right i x) (le_pyMax_head _ _)
    · exact ih (Nat.max i a) x hx'
/-- C3: with every identity mapped and a non-empty input,
`get_segment_token_offsets` returns exactly the pair
(minimum, maximum) of the mapped indices of the input identities, and
consequently any permutation of the input list yields the same
result. -/
theorem get_segment_token_offsets_min_max
    (l : List String) (tokenMap : String → Option Nat)
    (hmap : ∀ id ∈ l, (tokenMap id).isSome) (hne : l ≠ []) :
    ∃ lo hi, get_segment_token_offsets l tokenMap = .ok (lo, hi) ∧
      (∃ id ∈ l, tokenMap id = some lo) ∧
      (∃ id ∈ l, tokenMap id = some hi) ∧
      (∀ id ∈ l, ∀ k, tokenMap id = some k → lo ≤ k ∧ k ≤ hi) ∧
      (∀ l', l.Perm l' →
        get_segment_token_offsets l' tokenMap = .ok (lo, hi)) := by
  have hok := mapTokenIndices_ok_of_all tokenMap l hmap
  have hlen := length_filterMap_of_all tokenMap l hmap
  cases hfm : l.filterMap tokenMap with
  | nil =>
    rw [hfm] at hlen
    cases l with
    | nil => exact absurd rfl hne
    | cons x xs => simp at hlen
  | cons i rest =>
    have hres : get_segment_token_offsets l tokenMap =
        .ok (pyMin i rest, pyMax i rest) := by
      simp [get_segment_token_offsets, hok, hfm, exceptBind_ok]
    have hmem_of : ∀ x ∈ i :: rest, ∃ id ∈ l, tokenMap id = some x := by
      intro x hx
      rw [← hfm] at hx
      exact List.mem_filterMap.1 hx
    have hof_mem : ∀ id ∈ l, ∀ k, tokenMap id = some k → k ∈ i :: rest := by
      intro id hid k hk
      rw [← hfm]
      exact List.mem_filterMap.2 ⟨id, hid, hk⟩
    refine ⟨pyMin i rest, pyMax i rest, hres, hmem_of _ (pyMin_mem i rest),
      hmem_of _ (pyMax_mem i rest), ?_, ?_⟩
    · intro id hid k hk
      have hk' := hof_mem id hid k hk
      rcases List.mem_cons.1 hk' with rfl | hk''
      · exact ⟨pyMin_le_head _ _, le_pyMax_head _ _⟩
      · exact ⟨pyMin_le_mem _ _ _ hk'', le_pyMax_mem _ _ _ hk''⟩
    · intro l' hperm
      have hmap' : ∀ id ∈ l', (tokenMap id).isSome := fun id hid =>
        hmap id (hperm.mem_iff.2 hid)
      have hne' : l' ≠ [] := by
        intro h
        subst h
        exact hne hperm.eq_nil
      have hok' := mapTokenIndices_ok_of_all tokenMap l' hmap'
      have hlen' := length_filterMap_of_all tokenMap l' hmap'
      cases hfm' : l'.filterMap tokenMap with
      | nil =>
        rw [hfm'] at hlen'
        cases l' with
        | nil => exact absurd rfl hne'
        | cons x xs => simp at hlen'
      | cons i' rest' =>
        have hres' : get_segment_token_offsets l' tokenMap =
            .ok (pyMin i' rest', pyMax i' rest') := by
          simp [get_segment_token_offsets, hok', hfm', exceptBind_ok]
        have hmem_of' : ∀ x ∈ i' :: rest', ∃ id ∈ l', tokenMap id = some x := by
          intro x hx
          rw [← hfm'] at hx
          exact List.mem_filterMap.1 hx
        have hof_mem' : ∀ id ∈ l', ∀ k, tokenMap id = some k → k ∈ i' :: rest' := by
          intro id hid k hk
          rw [← hfm']
          exact List.mem_filterMap.2 ⟨id, hid, hk⟩
        -- the two minima (resp. maxima) bound each other
        obtain ⟨idl, hidl, hkl⟩ := hmem_of' _ (pyMin_mem i' rest')
        obtain ⟨idh, hidh, hkh⟩ := hmem_of' _ (pyMax_mem i' rest')
        obtain ⟨idl2, hidl2, hkl2⟩ := hmem_of _ (pyMin_mem i rest)
        obtain ⟨idh2, hidh2, hkh2⟩ := hmem_of _ (pyMax_mem i rest)
        have h1 : pyMin i rest ≤ pyMin i' rest' := by
          have := hof_mem idl (hperm.mem_iff.2 hidl) _ hkl
          rcases List.mem_cons.1 this with heq | hmm
          · rw [heq]; exact pyMin_le_head _ _
          · exact pyMin_le_mem _ _ _ hmm
        have h2 : pyMin i' rest' ≤ pyMin i rest := by
          have := hof_mem' idl2 (hperm.mem_iff.1 hidl2) _ hkl2
          rcases List.mem_cons.1 this with heq | hmm
          · rw [heq]; exact pyMin_le_head _ _
          · exact pyMin_le_mem _ _ _ hmm
        have h3 : pyMax i rest ≤ pyMax i' rest' := by
          have := hof_mem' idh2 (hperm.mem_iff.1 hidh2) _ hkh2
          rcases List.mem_cons.1 this with heq | hmm
          · rw [← heq]; exact le_pyMax_head _ _
          · exact le_pyMax_mem _ _ _ hmm
        have h4 : pyMax i' rest' ≤ pyMax i rest := by
          have := hof_mem idh (hperm.mem_iff.2 hidh) _ hkh
          rcases List.mem_cons.1 this with heq | hmm
          · rw [← heq]; exact le_pyMax_head _ _
          · exact le_pyMax_mem _ _ _ hmm
        rw [hres', Nat.le_antisymm h2 h1, Nat.le_antisymm h4 h3]

/-- Witness for C3 at a concrete input: token map `b1 ↦ 1, b2 ↦ 3`,
span list `["b2", "b1"]` (listed out of document order). -/
theorem get_segment_token_offsets_min_max_witness :
    (∀ id ∈ ["b2", "b1"],
      ((fun id => if id = "b2" then some 3 else
        if id = "b1" then some 1 else none) id).isSome) ∧
    (["b2", "b1"] ≠ []) ∧
    ∃ lo hi,
      get_segment_token_offsets ["b2", "b1"]
        (fun id => if id = "b2" then some 3 else
          if id = "b1" then some 1 else none) = .ok (lo, hi) ∧
      (∃ id ∈ ["b2", "b1"],
        (if id = "b2" then some 3 else if id = "b1" then some 1 else none)
          = some lo) ∧
      (∃ id ∈ ["b2", "b1"],
        (if id = "b2" then some 3 else if id = "b1" then some 1 else none)
          = some hi) ∧
      (∀ id ∈ ["b2", "b1"], ∀ k,
        (if id = "b2" then some 3 else if id = "b1" then some 1 else none)
          = some k → lo ≤ k ∧ k ≤ hi) ∧
      (∀ l', List.Perm ["b2", "b1"] l' →
        get_segment_token_offsets l'
          (fun id => if id = "b2" then some 3 else
            if id = "b1" then some 1 else none) = .ok (lo, hi)) :=
  ⟨by decide, by decide,
    get_segment_token_offsets_min_max ["b2", "b1"] _ (by decide) (by decide)⟩

/-- C9: the span-offset computation fails with `UnknownToken` exactly
when some input identity is unmapped, fails with `EmptySpan` exactly
when the input list is empty, and succeeds otherwise. -/
theorem get_segment_token_offsets_error_spec
    (l : List String) (tokenMap : String → Option Nat) :
    (get_segment_token_offsets l tokenMap = .error .unknownToken ↔
      ∃ id ∈ l, tokenMap id = none) ∧
    (get_segment_token_offsets l tokenMap = .error .emptySpan ↔ l = []) ∧
    ((∃ p, get_segment_token_offsets l tokenMap = .ok p) ↔
      (l ≠ [] ∧ ∀ id ∈ l, (tokenMap id).isSome)) := by
  by_cases hall : ∀ id ∈ l, (tokenMap id).isSome
  · have hok := mapTokenIndices_ok_of_all tokenMap l hall
    have hlen := length_filterMap_of_all tokenMap l hall
    have hnone : ¬ ∃ id ∈ l, tokenMap id = none := by
      rintro ⟨id, hid, hnone⟩
      have := hall id hid
      rw [hnone] at this
      simp at this
    cases hl : l with
    | nil =>
      subst hl
      have : get_segment_token_offsets [] tokenMap = .error .emptySpan := by
        simp [get_segment_token_offsets, hok, exceptBind_ok]
      refine ⟨?_, ?_, ?_⟩ <;> simp [this]
    | cons x xs =>
      subst hl
      cases hfm : (x :: xs).filterMap tokenMap with
      | nil => rw [hfm] at hlen; simp at hlen
      | cons i rest =>
        have hres : get_segment_token_offsets (x :: xs) tokenMap =
            .ok (pyMin i rest, pyMax i rest) := by
          simp [get_segment_token_offsets, hok, hfm, exceptBind_ok]
        refine ⟨?_, ?_, ?_⟩
        · simp only [hres]
          constructor
          · intro h; exact absurd h (by simp)
          · intro h; exact absurd h hnone
        · simp [hres]
        · simp only [hres]
          constructor
          · intro _; exact ⟨by simp, hall⟩
          · intro _; exact ⟨_, rfl⟩
  · have hex : ∃ id ∈ l, tokenMap id = none := by
      push_neg at hall
      obtain ⟨id, hid, h⟩ := hall
      exact ⟨id, hid, Option.not_isSome_iff_eq_none.1 h⟩
    have herr := mapTokenIndices_error_of_none tokenMap l hex
    have hres : get_segment_token_offsets l tokenMap = .error .unknownToken := by
      simp [get_segment_token_offsets, herr, exceptBind_err]
    have hlne : l ≠ [] := by
      rintro rfl
      obtain ⟨id, hid, _⟩ := hex
      simp at hid
    refine ⟨?_, ?_, ?_⟩
    · simp [hres, hex]
    · simp only [hres]
      constructor
      · intro h; exact absurd h (by simp)
      · intro h; exact absurd h hlne
    · simp only [hres]
      constructor
      · rintro ⟨p, hp⟩; exact absurd hp (by simp)
      · rintro ⟨_, hall2⟩; exact absurd hall2 hall

/-! ## Claim about TokenMapper under duplicate IDs (C10) -/

/-! ## Lemmas: TokenMapper (C10) -/

/-- One step of reverse induction on `TokenMapper.build`: appending a
token assigns its index in both directions, overriding `id2index` for
its ID. -/
theorem TokenMapper.build_append (ts : List String) (t : String) :
    TokenMapper.build (ts ++ [t]) =
      { id2index := fun s => if s = t then some ts.length
          else (TokenMapper.build ts).id2index s,
        index2id := fun k => if k = ts.length then some t
          else (TokenMapper.build ts).index2id k } := by
  unfold TokenMapper.build
  rw [List.enum_append]
  simp [List.enumFrom, List.foldl_append]

/-- `index2id` recovers the token sequence positionally. -/
theorem TokenMapper.index2id_eq (ts : List String) (k : Nat) :
    (TokenMapper.build ts).index2id k = ts.get? k := by
  induction ts using List.reverseRecOn generalizing k with
  | nil => simp [TokenMapper.build]
  | append_singleton ts t ih =>
    rw [TokenMapper.build_append]
    by_cases hk : k = ts.length
    · subst hk
      simp [List.get?_append_right (le_refl _)]
    · simp only [hk, if_false]
      by_cases hk2 : k < ts.length
      · rw [List.get?_append hk2, ih]
      · have h1 : ts.get? k = none := List.get?_eq_none.2 (by omega)
        have h2 : (ts ++ [t]).get? k = none := List.get?_eq_none.2 (by simp; omega)
        rw [h2, ← h1, ih]
/-- `id2index` of an absent token ID is `none`. -/
theorem TokenMapper.id2index_not_mem (ts : List String) (s : String)
    (h : s ∉ ts) : (TokenMapper.build ts).id2index s = none := by
  induction ts using List.reverseRecOn with
  | nil => simp [TokenMapper.build]
  | append_singleton ts t ih =>
    rw [TokenMapper.build_append]
    have hst : s ≠ t := by intro heq; exact h (by simp [heq])
    simp only [hst, if_false]
    exact ih (fun hmem => h (by simp [hmem]))

/-- `id2index` of a present token ID is its LAST (largest) position in
the token sequence. -/
theorem TokenMapper.id2index_mem (ts : List String) (s : String)
    (h : s ∈ ts) :
    ∃ m, (TokenMapper.build ts).id2index s = some m ∧
      ts.get? m = some s ∧ ∀ k, m < k → ts.get? k ≠ some s := by
  induction ts using List.reverseRecOn with
  | nil => simp at h
  | append_singleton ts t ih =>
    rw [TokenMapper.build_append]
    by_cases hst : s = t
    · subst hst
      refine ⟨ts.length, by simp, ?_, ?_⟩
      · simp [List.get?_append_right (le_refl _)]
      · intro k hk
        have hnone : (ts ++ [s]).get? k = none := List.get?_eq_none.2 (by simp; omega)
        rw [hnone]
        exact fun heq => Option.noConfusion heq
    · have hmem : s ∈ ts := by
        rcases List.mem_append.1 h with h1 | h1
        · exact h1
        · simp at h1; exact absurd h1 hst
      obtain ⟨m, hm, hget, hlast⟩ := ih hmem
      have hmlt : m < ts.length := by
        by_contra hge
        rw [List.get?_eq_none.2 (by omega)] at hget
        exact Option.noConfusion hget
      refine ⟨m, by simp [hst, hm], ?_, ?_⟩
      · rw [List.get?_append hmlt]; exact hget
      · intro k hk
        by_cases hk2 : k < ts.length
        · rw [List.get?_append hk2]; exact hlast k hk
        · by_cases hk3 : k = ts.length
          · subst hk3
            rw [List.get?_append_right (le_refl _)]
            simpa using fun heq => hst heq.symm
          · rw [List.get?_eq_none.2 (by simp; omega)]
            exact fun heq => Option.noConfusion heq

/-- C10: building a `TokenMapper` over a token sequence containing a
duplicated token ID still succeeds: `index2id` is total over all
positions (it recovers the sequence positionally), but `id2index`
sends the duplicated ID only to its last (largest) position, so the
two mappings are not mutually inverse. -/
theorem TokenMapper.build_duplicate (ts : List String) (i j : Nat)
    (x : String) (hij : i < j) (hi : ts.get? i = some x)
    (hj : ts.get? j = some x) :
    (∀ k, (TokenMapper.build ts).index2id k = ts.get? k) ∧
    (∃ m, (TokenMapper.build ts).id2index x = some m ∧ j ≤ m ∧
      ts.get? m = some x ∧ ∀ k, m < k → ts.get? k ≠ some x) ∧
    (∃ k s, (TokenMapper.build ts).index2id k = some s ∧
      (TokenMapper.build ts).id2index s ≠ some k) := by
  have hmem : x ∈ ts := List.get?_mem hi
  obtain ⟨m, hm, hget, hlast⟩ := TokenMapper.id2index_mem ts x hmem
  have hjm : j ≤ m := by
    by_contra hlt
    exact hlast j (by omega) hj
  refine ⟨fun k => TokenMapper.index2id_eq ts k, ⟨m, hm, hjm, hget, hlast⟩,
    ⟨i, x, ?_, ?_⟩⟩
  · rw [TokenMapper.index2id_eq]; exact hi
  · rw [hm]
    intro heq
    have : m = i := by injection heq
    omega

/-- Witness for C10 at the concrete sequence `["a", "b", "a"]`
(identity `"a"` duplicated at positions 0 and 2). -/
theorem TokenMapper.build_duplicate_witness :
    ((0 : Nat) < 2) ∧ (["a", "b", "a"].get? 0 = some "a") ∧
    (["a", "b", "a"].get? 2 = some "a") ∧
    ((∀ k, (TokenMapper.build ["a", "b", "a"]).index2id k =
        ["a", "b", "a"].get? k) ∧
      (∃ m, (TokenMapper.build ["a", "b", "a"]).id2index "a" = some m ∧
        2 ≤ m ∧ ["a", "b", "a"].get? m = some "a" ∧
        ∀ k, m < k → ["a", "b", "a"].get? k ≠ some "a") ∧
      (∃ k s, (TokenMapper.build ["a", "b", "a"]).index2id k = some s ∧
        (TokenMapper.build ["a", "b", "a"]).id2index s ≠ some k)) :=
  ⟨by decide, by decide, by decide,
    TokenMapper.build_duplicate ["a", "b", "a"] 0 2 "a" (by decide)
      (by decide) (by decide)⟩

/-! ## Lemmas: gen_bracket_mappings -/

/-- The inner `for markable in chain` loop of the `markable2chain`
construction maps exactly the chain's members to the chain id. -/
theorem chain_foldl_eq (ch : List String) (c0 : String)
    (acc : String → Option String) (x : String) :
    (ch.foldl (fun a m => fun y => if y = m then some c0 else a y) acc) x =
      if x ∈ ch then some c0 else acc x := by
  induction ch generalizing acc with
  | nil => simp
  | cons m ms ih =>
    rw [List.foldl_cons, ih]
    by_cases hx : x ∈ ms
    · simp [hx]
    · by_cases hxm : x = m <;> simp [hx, hxm]

/-- If every chain is non-empty, `buildMarkable2Chain` succeeds and
the resulting map covers every markable of every chain, assigning only
chain ids drawn from the chains themselves. -/
theorem buildMarkable2Chain_ok (chains : List (List String))
    (h : ∀ ch ∈ chains, ch ≠ []) :
    ∃ f, buildMarkable2Chain chains = .ok f ∧
      (∀ m ∈ chains.flatten, (f m).isSome) ∧
      (∀ m c, f m = some c → c ∈ chains.flatten) := by
  suffices haux : ∀ (chs : List (List String)) (acc : String → Option String),
      (∀ ch ∈ chs, ch ≠ []) →
      ∃ f, (chs.foldlM (fun acc chain =>
          match chain with
          | [] => .error .indexError
          | c0 :: _ => .ok (chain.foldl
              (fun a m => fun x => if x = m then some c0 else a x) acc))
          acc : Except PyErr (String → Option String)) = .ok f ∧
        (∀ m ∈ chs.flatten, (f m).isSome) ∧
        (∀ m c, f m = some c → (acc m = some c ∨ c ∈ chs.flatten)) ∧
        (∀ m, (acc m).isSome → (f m).isSome) by
    obtain ⟨f, hf, hcov, hrange, _⟩ := haux chains (fun _ => none) h
    refine ⟨f, hf, hcov, fun m c hmc => ?_⟩
    rcases hrange m c hmc with hacc | hmem
    · exact absurd hacc (by simp)
    · exact hmem
  intro chs
  induction chs with
  | nil =>
    intro acc _
    exact ⟨acc, rfl, by simp, fun m c h => Or.inl h, fun m h => h⟩
  | cons ch rest ih =>
    intro acc hne
    cases hch : ch with
    | nil => exact absurd hch (hne ch (by simp))
    | cons c0 cs =>
      subst hch
      obtain ⟨f, hf, hcov, hrange, hmono⟩ :=
        ih ((c0 :: cs).foldl (fun a m => fun x => if x = m then some c0 else a x) acc)
          (fun ch2 h2 => hne ch2 (by simp [h2]))
      refine ⟨f, ?_, ?_, ?_, ?_⟩
      · rw [List.foldlM_cons]
        exact hf
      · intro m hm
        rcases List.mem_flatten.1 hm with ⟨l, hl, hml⟩
        rcases List.mem_cons.1 hl with rfl | hl'
        · apply hmono
          rw [chain_foldl_eq]
          simp [hml]
        · exact hcov m (List.mem_flatten.2 ⟨l, hl', hml⟩)
      · intro m c hmc
        rcases hrange m c hmc with hacc | hmem
        · rw [chain_foldl_eq] at hacc
          by_cases hm : m ∈ c0 :: cs
          · rw [if_pos hm] at hacc
            injection hacc with hacc
            subst hacc
            refine Or.inr ?_
            simp only [List.flatten_cons]
            exact List.mem_append.2 (Or.inl (by simp))
          · rw [if_neg hm] at hacc
            exact Or.inl hacc
        · exact Or.inr (by simp only [List.flatten_cons]; exact List.mem_append.2 (Or.inr hmem))
      · intro m hsome
        apply hmono
        rw [chain_foldl_eq]
        split
        · simp
        · exact hsome
/-- The markables of `gen_bracket_mappings`: the flattened pointing
chains in natural-sort order. -/
def markablesSorted (g : DocGraph) : List String :=
  sortedNatural g.pointingChains.flatten

/-- Characterization of the `opening` map: the markables (in
processing order) whose span starts at the given token. -/
def openingMap (g : DocGraph) : String → List String :=
  fun t => (markablesSorted g).filter (fun m => (g.span m).head? = some t)

/-- Characterization of the `closing` map: the markables (in
processing order) whose span ends at the given token. -/
def closingMap (g : DocGraph) : String → List String :=
  fun t => (markablesSorted g).filter (fun m => (g.span m).getLast? = some t)

/-- The `opening`/`closing` fold, started from any accumulator,
appends exactly the markables anchored at each token. -/
theorem buildBoundaries_aux (g : DocGraph) (ms : List String) :
    ∀ (o c : String → List String), (∀ m ∈ ms, g.span m ≠ []) →
    (ms.foldlM (fun oc m =>
      match g.span m with
      | [] => .error .indexError
      | t0 :: rest =>
        .ok (appendAt oc.1 t0 m,
             appendAt oc.2 ((t0 :: rest).getLast (List.cons_ne_nil t0 rest)) m))
      ((o, c) : (String → List String) × (String → List String)) :
        Except PyErr _) =
      .ok (fun t => o t ++ ms.filter (fun m => (g.span m).head? = some t),
           fun t => c t ++ ms.filter (fun m => (g.span m).getLast? = some t)) := by
  induction ms with
  | nil =>
    intro o c _
    simp only [List.foldlM_nil, List.filter_nil, List.append_nil]
    rfl
  | cons m rest ih =>
    intro o c hne
    cases hsp : g.span m with
    | nil => exact absurd hsp (hne m (by simp))
    | cons t0 ts =>
      rw [List.foldlM_cons]
      have hstep := ih (appendAt o t0 m)
        (appendAt c ((t0 :: ts).getLast (List.cons_ne_nil t0 ts)) m)
        (fun m2 h2 => hne m2 (by simp [h2]))
      simp only [hsp]
      rw [exceptBind_ok, hstep]
      refine congrArg Except.ok (Prod.ext ?_ ?_) <;> funext t
      · by_cases ht : t = t0
        · subst ht
          simp [appendAt, hsp, List.filter_cons]
        · have ht' : ¬ t0 = t := fun h => ht h.symm
          simp [appendAt, hsp, List.filter_cons, ht, ht']
      · have hlast : (t0 :: ts).getLast? =
            some ((t0 :: ts).getLast (List.cons_ne_nil t0 ts)) :=
          List.getLast?_eq_getLast _ _
        by_cases ht : t = (t0 :: ts).getLast (List.cons_ne_nil t0 ts)
        · rw [ht]
          simp [appendAt, hsp, List.filter_cons, hlast]
        · have ht' : ¬ (t0 :: ts).getLast (List.cons_ne_nil t0 ts) = t :=
            fun h => ht h.symm
          simp [appendAt, hsp, List.filter_cons, ht, ht', hlast]

/-- If every markable's span is non-empty, `buildBoundaries` returns
exactly the `openingMap`/`closingMap` pair. -/
theorem buildBoundaries_ok (g : DocGraph)
    (h : ∀ m ∈ markablesSorted g, g.span m ≠ []) :
    buildBoundaries g (markablesSorted g) = .ok (openingMap g, closingMap g) := by
  have h2 := buildBoundaries_aux g (markablesSorted g) (fun _ => []) (fun _ => []) h
  unfold buildBoundaries openingMap closingMap
  rw [h2]
  refine congrArg Except.ok (Prod.ext ?_ ?_) <;> funext t <;> simp

/-- If the fold succeeds, every processed markable had a non-empty
span. -/
theorem buildBoundaries_ok_spans (g : DocGraph) (ms : List String) :
    ∀ (acc : (String → List String) × (String → List String)) oc,
    (ms.foldlM (fun oc m =>
      match g.span m with
      | [] => .error .indexError
      | t0 :: rest =>
        .ok (appendAt oc.1 t0 m,
             appendAt oc.2 ((t0 :: rest).getLast (List.cons_ne_nil t0 rest)) m))
      acc : Except PyErr _) = .ok oc →
    ∀ m ∈ ms, g.span m ≠ [] := by
  induction ms with
  | nil => intro _ _ _ m hm; simp at hm
  | cons m0 rest ih =>
    intro acc oc hok m hm
    rw [List.foldlM_cons] at hok
    cases hsp : g.span m0 with
    | nil =>
      rw [hsp] at hok
      exact absurd hok (by simp [exceptBind_err])
    | cons t0 ts =>
      rw [hsp] at hok
      rw [exceptBind_ok] at hok
      rcases List.mem_cons.1 hm with rfl | hm'
      · simp [hsp]
      · exact ih _ oc hok m hm'

/-- If the `markable2chain` fold succeeds, every chain was
non-empty. -/
theorem buildMarkable2Chain_aux_chains (chains : List (List String)) :
    ∀ (acc : String → Option String) f,
    (chains.foldlM (fun acc chain =>
      match chain with
      | [] => .error .indexError
      | c0 :: _ =>
        .ok (chain.foldl (fun a m => fun x => if x = m then some c0 else a x) acc))
      acc : Except PyErr _) = .ok f →
    ∀ ch ∈ chains, ch ≠ [] := by
  induction chains with
  | nil => intro _ _ _ ch hch; simp at hch
  | cons ch0 rest ih =>
    intro acc f hok ch hch
    rw [List.foldlM_cons] at hok
    cases hch0 : ch0 with
    | nil =>
      rw [hch0] at hok
      exact absurd hok (by simp [exceptBind_err])
    | cons c0 cs =>
      rw [hch0] at hok
      rw [exceptBind_ok] at hok
      rcases List.mem_cons.1 hch with rfl | hch'
      · simp [hch0]
      · exact ih _ f hok ch hch'

/-- If `buildMarkable2Chain` succeeds, every chain was non-empty. -/
theorem buildMarkable2Chain_ok_chains (chains : List (List String)) (f)
    (h : buildMarkable2Chain chains = .ok f) : ∀ ch ∈ chains, ch ≠ [] :=
  buildMarkable2Chain_aux_chains chains _ f h
/-- Forward characterization of `gen_bracket_mappings`: with non-empty
chains and non-empty spans it succeeds, the `opening`/`closing` maps
are exactly `openingMap`/`closingMap`, and the chain map covers all
markables with chain ids drawn from the markables. -/
theorem gen_bracket_mappings_ok (g : DocGraph)
    (hch : ∀ ch ∈ g.pointingChains, ch ≠ [])
    (hsp : ∀ m ∈ g.pointingChains.flatten, g.span m ≠ []) :
    ∃ m2c, gen_bracket_mappings g = .ok (openingMap g, closingMap g, m2c) ∧
      (∀ m ∈ g.pointingChains.flatten, (m2c m).isSome) ∧
      (∀ m c, m2c m = some c → c ∈ g.pointingChains.flatten) := by
  obtain ⟨f, hf, hcov, hrange⟩ := buildMarkable2Chain_ok g.pointingChains hch
  have hsp' : ∀ m ∈ markablesSorted g, g.span m ≠ [] := by
    intro m hm
    exact hsp m ((List.perm_insertionSort natLe g.pointingChains.flatten).mem_iff.1 hm)
  have hb := buildBoundaries_ok g hsp'
  refine ⟨f, ?_, hcov, hrange⟩
  unfold gen_bracket_mappings
  rw [hf, exceptBind_ok]
  show (buildBoundaries g (markablesSorted g) >>= _) = _
  rw [hb, exceptBind_ok]

/-- Backward characterization: whenever `gen_bracket_mappings`
succeeds, the returned maps are exactly `openingMap`/`closingMap` and
the chain map covers all markables. -/
theorem gen_bracket_mappings_eq (g : DocGraph)
    (o c : String → List String) (m2c : String → Option String)
    (h : gen_bracket_mappings g = .ok (o, c, m2c)) :
    o = openingMap g ∧ c = closingMap g ∧
      (∀ m ∈ g.pointingChains.flatten, (m2c m).isSome) ∧
      (∀ m cid, m2c m = some cid → cid ∈ g.pointingChains.flatten) := by
  unfold gen_bracket_mappings at h
  cases hf : buildMarkable2Chain g.pointingChains with
  | error e =>
    rw [hf] at h
    exact absurd h (by simp [exceptBind_err])
  | ok f =>
    rw [hf, exceptBind_ok] at h
    have hch := buildMarkable2Chain_ok_chains g.pointingChains f hf
    obtain ⟨f', hf', hcov, hrange⟩ := buildMarkable2Chain_ok g.pointingChains hch
    have hff : f = f' := by
      rw [hf] at hf'
      injection hf'
    subst hff
    cases hb : buildBoundaries g (markablesSorted g) with
    | error e =>
      rw [show (sortedNatural g.pointingChains.flatten) = markablesSorted g from rfl,
        hb] at h
      exact absurd h (by simp [exceptBind_err])
    | ok oc =>
      have hsp := buildBoundaries_ok_spans g (markablesSorted g) _ oc hb
      have hb2 := buildBoundaries_ok g hsp
      rw [hb] at hb2
      injection hb2 with hb2
      subst hb2
      rw [show (sortedNatural g.pointingChains.flatten) = markablesSorted g from rfl,
        hb, exceptBind_ok] at h
      injection h with h
      have h1 : openingMap g = o := congrArg Prod.fst h
      have h2 : closingMap g = c := congrArg (fun p => p.2.1) h
      have h3 : f = m2c := congrArg (fun p => p.2.2) h
      refine ⟨h1.symm, h2.symm, ?_, ?_⟩
      · intro m hm
        rw [← h3]
        exact hcov m hm
      · intro m cid hmc
        rw [← h3] at hmc
        exact hrange m cid hmc

/-! ## Claims about span anchors and natural order (C2, C8) -/

/-- A document graph whose single markable `m1` lists its span tokens
out of document order: the span attribute stores `["t2", "t1"]` while
the document order is `t1` (position 0) before `t2` (position 1). -/
def gSpanRev : DocGraph :=
  { tokens := ["t1", "t2"],
    surface := fun t => t,
    pointingChains := [["m1"]],
    span := fun m => if m = "m1" then ["t2", "t1"] else [] }

/-- Counterexample to C2: the claim predicts that the opening anchor
of `m1` is the minimum-position span token `t1` and the closing anchor
the maximum-position token `t2`; the code anchors the opening at the
FIRST stored element `t2` (the maximum position) and the closing at
the LAST stored element `t1` (the minimum position), i.e. exactly the
other way around. -/
theorem gen_bracket_mappings_anchor_cex :
    (gen_bracket_mappings gSpanRev).toOption.map
        (fun x => (x.1 "t1", x.1 "t2", x.2.1 "t1", x.2.1 "t2"))
      = some ([], ["m1"], ["m1"], []) ∧
    List.indexOf "t1" gSpanRev.tokens < List.indexOf "t2" gSpanRev.tokens := by
  exact ⟨rfl, by decide⟩

/-- C2 (amended): for every markable, the span-boundary indexing step
anchors the opening at the FIRST element and the closing at the LAST
element of the markable's resolved span token list, in the order the
span attribute stores them — document order is not consulted. -/
theorem gen_bracket_mappings_anchors (g : DocGraph)
    (o c : String → List String) (m2c : String → Option String)
    (h : gen_bracket_mappings g = .ok (o, c, m2c)) :
    (∀ t, o t = (markablesSorted g).filter
      (fun m => (g.span m).head? = some t)) ∧
    (∀ t, c t = (markablesSorted g).filter
      (fun m => (g.span m).getLast? = some t)) := by
  obtain ⟨h1, h2, _, _⟩ := gen_bracket_mappings_eq g o c m2c h
  subst h1 h2
  exact ⟨fun t => rfl, fun t => rfl⟩

/-- Witness for the amended C2 at the concrete graph `gSpanRev`. -/
theorem gen_bracket_mappings_anchors_witness :
    ∃ o c m2c, gen_bracket_mappings gSpanRev = .ok (o, c, m2c) ∧
      (∀ t, o t = (markablesSorted gSpanRev).filter
        (fun m => (gSpanRev.span m).head? = some t)) ∧
      (∀ t, c t = (markablesSorted gSpanRev).filter
        (fun m => (gSpanRev.span m).getLast? = some t)) := by
  obtain ⟨m2c, hok, _, _⟩ := gen_bracket_mappings_ok gSpanRev
    (by decide) (by decide)
  exact ⟨_, _, m2c, hok, gen_bracket_mappings_anchors gSpanRev _ _ m2c hok⟩

/-- C8: `natural_sort_key` splits identifiers into text runs and
numerically-compared digit runs (witnessed concretely on `"a10"`),
sorting with it places `a1 < a2 < a10`, and the markables of
`gen_bracket_mappings` are processed in this natural order, which
therefore is the tie-break order of the per-token `opening` and
`closing` lists (each is the natural-order list filtered to the
markables anchored at that token, hence a sublist of it). -/
theorem natural_sort_spec (g : DocGraph)
    (o c : String → List String) (m2c : String → Option String)
    (h : gen_bracket_mappings g = .ok (o, c, m2c)) :
    (natural_sort_key "a10" = [.str "a", .num 10, .str ""]) ∧
    (sortedNatural ["a2", "a10", "a1"] = ["a1", "a2", "a10"]) ∧
    ((markablesSorted g).Perm g.pointingChains.flatten) ∧
    (∀ t, (o t).Sublist (markablesSorted g) ∧
      (c t).Sublist (markablesSorted g)) := by
  obtain ⟨h1, h2, _, _⟩ := gen_bracket_mappings_eq g o c m2c h
  subst h1 h2
  exact ⟨by decide, by decide,
    List.perm_insertionSort natLe g.pointingChains.flatten,
    fun t => ⟨List.filter_sublist _, List.filter_sublist _⟩⟩

/-- Witness for C8 at the concrete graph `gSpanRev`. -/
theorem natural_sort_spec_witness :
    ∃ o c m2c, gen_bracket_mappings gSpanRev = .ok (o, c, m2c) ∧
      ((natural_sort_key "a10" = [.str "a", .num 10, .str ""]) ∧
       (sortedNatural ["a2", "a10", "a1"] = ["a1", "a2", "a10"]) ∧
       ((markablesSorted gSpanRev).Perm gSpanRev.pointingChains.flatten) ∧
       (∀ t, (o t).Sublist (markablesSorted gSpanRev) ∧
         (c t).Sublist (markablesSorted gSpanRev))) := by
  obtain ⟨m2c, hok, _, _⟩ := gen_bracket_mappings_ok gSpanRev
    (by decide) (by decide)
  exact ⟨_, _, m2c, hok, natural_sort_spec gSpanRev _ _ m2c hok⟩

/-! ## Claim about closing-bracket emission (C7) -/

/-- Popping `n` elements one at a time succeeds exactly on the top `n`
elements (in pop order, i.e. most recently pushed first) and leaves
the rest. -/
theorem popN_ok (n : Nat) (stack : List String) (h : n ≤ stack.length) :
    popN n stack = .ok (stack.take n, stack.drop n) := by
  induction n generalizing stack with
  | zero => simp [popN]
  | succ k ih =>
    cases stack with
    | nil => simp at h
    | cons m rest =>
      have hk : k ≤ rest.length := by simpa using h
      simp [popN, ih rest hk, exceptBind_ok]

theorem strFoldlAppend (l : List String) (s t : String) :
    l.foldl (· ++ ·) (s ++ t) = s ++ l.foldl (· ++ ·) t := by
  induction l generalizing t with
  | nil => rfl
  | cons a as ih => simp only [List.foldl_cons, String.append_assoc, ih]

/-- With every popped markable carrying a chain id, `formatClosing`
emits one `]_{chain}` group per popped markable, in pop order. -/
theorem formatClosing_ok (m2c : String → Option String) (l : List String)
    (h : ∀ m ∈ l, (m2c m).isSome) :
    formatClosing m2c l = .ok (String.join (l.map
      (fun m => "]_\x7b" ++ ((m2c m).getD "") ++ "\x7d"))) := by
  induction l with
  | nil => simp [formatClosing, String.join]
  | cons m ms ih =>
    have hm := h m (by simp)
    cases hm2 : m2c m with
    | none => rw [hm2] at hm; simp at hm
    | some cid =>
      have hms := ih (fun x hx => h x (by simp [hx]))
      simp only [formatClosing, hm2, hms, exceptBind_ok, String.join,
        List.map_cons, List.foldl_cons]
      have he : ("" : String) ++ ("]_\x7b" ++ cid ++ "\x7d") =
          ("]_\x7b" ++ cid ++ "\x7d") ++ "" := by
        simp
      rw [Option.getD_some, he, strFoldlAppend]

/-- `gen_closing_string` pops `len(closing[token])` markables (top of
stack first) and emits their chain-annotated close groups. -/
theorem gen_closing_string_ok (closing : String → List String)
    (m2c : String → Option String) (tid : String) (stack : List String)
    (hM : (closing tid).length ≤ stack.length)
    (hm2c : ∀ m ∈ stack.take (closing tid).length, (m2c m).isSome) :
    gen_closing_string closing m2c tid stack = .ok
      (String.join ((stack.take (closing tid).length).map
        (fun m => "]_\x7b" ++ ((m2c m).getD "") ++ "\x7d")),
       stack.drop (closing tid).length) := by
  unfold gen_closing_string
  rw [popN_ok _ _ hM]
  simp only [exceptBind_ok, formatClosing_ok _ _ hm2c]

/-- C7: a token that closes `M` markables makes the renderer pop
exactly `M` markables off the stack (after the token's own opens are
pushed), in LIFO order — the most recently pushed first — and emit,
immediately after the token's surface string, one close-bracket group
per popped markable annotated with that markable's chain id. -/
theorem processToken_closing (g : DocGraph)
    (opening closing : String → List String) (m2c : String → Option String)
    (tid : String) (stack : List String)
    (hM : (closing tid).length ≤ ((opening tid).reverse ++ stack).length)
    (hm2c : ∀ m ∈ (opening tid).reverse ++ stack, (m2c m).isSome)
    (hcl : closing tid ≠ []) :
    processToken g opening closing m2c tid stack = .ok
      (String.mk (List.replicate (opening tid).length '[') ++ g.surface tid ++
        String.join (((((opening tid).reverse ++ stack).take
          (closing tid).length)).map
          (fun m => "]_\x7b" ++ ((m2c m).getD "") ++ "\x7d")) ++ " ",
       ((opening tid).reverse ++ stack).drop (closing tid).length) := by
  have hsub : ∀ m ∈ ((opening tid).reverse ++ stack).take (closing tid).length,
      (m2c m).isSome :=
    fun m hm => hm2c m (List.take_subset _ _ hm)
  by_cases hop : opening tid = []
  · unfold processToken
    rw [if_neg (by simp [hop]), if_pos hcl]
    rw [gen_closing_string_ok closing m2c tid stack
      (by simpa [hop] using hM) (by simpa [hop] using hsub)]
    rw [hop]
    rfl
  · unfold processToken
    rw [if_pos hop, if_pos hcl]
    rw [gen_closing_string_ok closing m2c tid ((opening tid).reverse ++ stack)
      hM hsub]
    rfl

/-- Witness for C7: token `t1` closes one markable while the stack
(after no opens) holds `m1 : c1`. -/
theorem processToken_closing_witness :
    ((fun t => if t = "t1" then ["m1"] else []) "t1" : List String).length ≤
      (((fun _ => []) "t1" : List String).reverse ++ ["m1"]).length ∧
    (∀ m ∈ (((fun _ => []) "t1" : List String).reverse ++ ["m1"]),
      (((fun m2 => if m2 = "m1" then some "c1" else none) m :
        Option String)).isSome) ∧
    ((fun t => if t = "t1" then ["m1"] else []) "t1" : List String) ≠ [] ∧
    processToken gSpanRev (fun _ => [])
      (fun t => if t = "t1" then ["m1"] else [])
      (fun m2 => if m2 = "m1" then some "c1" else none) "t1" ["m1"] = .ok
      (String.mk (List.replicate (((fun _ => []) "t1" : List String)).length '[') ++
        gSpanRev.surface "t1" ++
        String.join ((((((fun _ => []) "t1" : List String)).reverse ++
          ["m1"]).take ((fun t => if t = "t1" then ["m1"] else []) "t1" :
            List String).length).map
          (fun m => "]_\x7b" ++ (((fun m2 => if m2 = "m1" then some "c1"
            else none) m : Option String).getD "") ++ "\x7d")) ++ " ",
       ((((fun _ => []) "t1" : List String)).reverse ++ ["m1"]).drop
         ((fun t => if t = "t1" then ["m1"] else []) "t1" : List String).length) :=
  ⟨by decide, by decide, by decide,
    processToken_closing gSpanRev (fun _ => [])
      (fun t => if t = "t1" then ["m1"] else [])
      (fun m2 => if m2 = "m1" then some "c1" else none) "t1" ["m1"]
      (by decide) (by decide) (by decide)⟩

/-! ## Claim about unbalanced-span handling (C1) -/

/-- A document graph with one markable `m1` whose closing anchor `t3`
is not in the document's token sequence: after the scan `m1` is still
on the open-markable stack. -/
def gUnbal : DocGraph :=
  { tokens := ["t1", "t2"],
    surface := fun t => if t = "t1" then "a" else "b",
    pointingChains := [["m1"]],
    span := fun m => if m = "m1" then ["t1", "t3"] else [] }

/-- Evaluation of the code at the C1 failing input: the scan ends with
the non-empty stack `["m1"]`, yet `gen_bracketed_output` returns the
plain string `"[a b "` — the unbalanced open is silently ignored and
no `UnbalancedSpans`-like error is surfaced. -/
theorem gen_bracketed_output_unbalanced :
    gen_bracketed_output gUnbal = .ok "[a b " ∧
    (gen_bracket_mappings gUnbal).toOption.map
        (fun x => scanTokens gUnbal x.1 x.2.1 x.2.2 gUnbal.tokens [])
      = some (.ok ("[a b ", ["m1"])) :=
  ⟨rfl, rfl⟩

/-! ## Claim about the sentence limit (C4) -/

/-- Counterexample to C4: with `limit = 0` and one input sentence the
claim demands `min 0 1 = 0` ingested sentences, but Python's
`if limit:` treats `0` as falsy and the code ingests ALL sentences —
here one sentence (`sentences` has length 1). -/
theorem ofSentences_limit_zero_cex :
    (PTBDocumentGraph.ofSentences
      [("S", PTreeList.cons (.leaf "w") .nil)] (some 0)).sentences.length = 1 ∧
    Nat.min 0 [("S", PTreeList.cons (.leaf "w") .nil)].length = 0 := by
  exact ⟨by decide, by decide⟩

/-- The subtree walk never touches the `sentences` list. -/
theorem parseSubtrees_sentences : ∀ (ts : PTreeList) (st : PTBDocumentGraph)
    (r : Nat), (parseSubtrees st r ts).sentences = st.sentences
  | .nil, st, r => rfl
  | .cons (.node l cs) rest, st, r => by
    simp only [parseSubtrees]
    rw [parseSubtrees_sentences rest _ r, parseSubtrees_sentences cs _ _]
    simp [addEdgeSt]
  | .cons (.leaf s) rest, st, r => by
    simp only [parseSubtrees]
    rw [parseSubtrees_sentences rest _ r]
    simp [addEdgeSt]
termination_by ts => sizeOf ts

/-- `_add_sentence` appends exactly the sentence-root id to
`sentences`. -/
theorem add_sentence_sentences (st : PTBDocumentGraph)
    (sent : String × PTreeList) :
    (add_sentence st sent).sentences = st.sentences ++ [st.nodeId] := by
  unfold add_sentence parse_sentencetree
  rw [parseSubtrees_sentences]
  simp [addEdgeSt]

/-- Folding `_add_sentence` adds one sentence entry per input
sentence. -/
theorem foldl_add_sentence_length (sents : List (String × PTreeList)) :
    ∀ st, ((sents.foldl add_sentence st).sentences).length =
      st.sentences.length + sents.length := by
  induction sents with
  | nil => intro st; simp
  | cons s rest ih =>
    intro st
    rw [List.foldl_cons, ih, add_sentence_sentences]
    simp
    omega

/-- C4 (amended): for every limit `n ≥ 1` the construction ingests
exactly the first `min(n, k)` sentences — it coincides with running
the builder on the truncated input, so later content is never
visited — while `limit = 0` (like `None`) disables truncation
entirely because of Python's `if limit:` truthiness test. -/
theorem ofSentences_limit_spec (sents : List (String × PTreeList)) (n : Nat)
    (hn : 1 ≤ n) :
    PTBDocumentGraph.ofSentences sents (some n) =
      PTBDocumentGraph.ofSentences (sents.take n) none ∧
    (PTBDocumentGraph.ofSentences sents (some n)).sentences.length =
      Nat.min n sents.length ∧
    PTBDocumentGraph.ofSentences sents (some 0) =
      PTBDocumentGraph.ofSentences sents none := by
  have h0 : limitSentences sents (some n) = sents.take n := by
    have : n ≠ 0 := by omega
    simp [limitSentences, this]
  refine ⟨?_, ?_, ?_⟩
  · unfold PTBDocumentGraph.ofSentences
    rw [h0]
    rfl
  · unfold PTBDocumentGraph.ofSentences
    rw [h0, foldl_add_sentence_length]
    simp [initPTBGraph, Nat.min_comm]
  · rfl

/-- Witness for the amended C4 at `n = 1` over a two-sentence input. -/
theorem ofSentences_limit_spec_witness :
    (1 ≤ 1) ∧
    (PTBDocumentGraph.ofSentences
        [("S", PTreeList.cons (.leaf "w") .nil),
         ("S", PTreeList.cons (.leaf "v") .nil)] (some 1) =
      PTBDocumentGraph.ofSentences
        ([("S", PTreeList.cons (.leaf "w") .nil),
          ("S", PTreeList.cons (.leaf "v") .nil)].take 1) none ∧
    (PTBDocumentGraph.ofSentences
        [("S", PTreeList.cons (.leaf "w") .nil),
         ("S", PTreeList.cons (.leaf "v") .nil)] (some 1)).sentences.length =
      Nat.min 1 [("S", PTreeList.cons (.leaf "w") .nil),
         ("S", PTreeList.cons (.leaf "v") .nil)].length ∧
    PTBDocumentGraph.ofSentences
        [("S", PTreeList.cons (.leaf "w") .nil),
         ("S", PTreeList.cons (.leaf "v") .nil)] (some 0) =
      PTBDocumentGraph.ofSentences
        [("S", PTreeList.cons (.leaf "w") .nil),
         ("S", PTreeList.cons (.leaf "v") .nil)] none) :=
  ⟨by decide, ofSentences_limit_spec _ 1 (by decide)⟩

/-! ## Lemmas: node lookups for the PTB builder (C6) -/

/-- The token-surface attribute of node `i` (`None` when the node is
missing or carries no `token` key). -/
def tok (nodes : List (Nat × NodeAttrs)) (i : Nat) : Option String :=
  (nodes.lookup i).bind NodeAttrs.token

/-- The token-surface attribute of node `i` in a builder state. -/
def tokenAttr (st : PTBDocumentGraph) (i : Nat) : Option String :=
  tok st.nodes i

theorem lookup_append_some (l1 l2 : List (Nat × NodeAttrs)) (i : Nat)
    (a : NodeAttrs) (h : l1.lookup i = some a) : (l1 ++ l2).lookup i = some a := by
  induction l1 with
  | nil => simp [List.lookup] at h
  | cons p rest ih =>
    rw [List.cons_append]
    by_cases hp : i = p.1
    · simp [List.lookup, hp] at h ⊢
      exact h
    · have hne : (i == p.1) = false := by simpa using hp
      simp only [List.lookup, hne] at h ⊢
      exact ih h

theorem lookup_append_none (l1 l2 : List (Nat × NodeAttrs)) (i : Nat)
    (h : l1.lookup i = none) : (l1 ++ l2).lookup i = l2.lookup i := by
  induction l1 with
  | nil => simp
  | cons p rest ih =>
    rw [List.cons_append]
    by_cases hp : i = p.1
    · simp [List.lookup, hp] at h
    · have hne : (i == p.1) = false := by simpa using hp
      simp only [List.lookup, hne] at h ⊢
      exact ih h

theorem lookup_bound_none (nodes : List (Nat × NodeAttrs)) (n i : Nat)
    (hb : ∀ p ∈ nodes, p.1 ≤ n) (hi : n < i) : nodes.lookup i = none := by
  induction nodes with
  | nil => rfl
  | cons p rest ih =>
    have hp := hb p (by simp)
    have hne : (i == p.1) = false := by
      simp only [beq_eq_false_iff_ne, ne_eq]
      omega
    simp only [List.lookup, hne]
    exact ih (fun q hq => hb q (by simp [hq]))

theorem any_key_isSome (nodes : List (Nat × NodeAttrs)) (i : Nat) :
    (nodes.any (fun p => p.1 = i)) = (nodes.lookup i).isSome := by
  induction nodes with
  | nil => rfl
  | cons p rest ih =>
    by_cases hp : p.1 = i
    · have : (i == p.1) = true := by simpa using hp.symm
      simp [List.any_cons, List.lookup, hp, this]
    · have : (i == p.1) = false := by simpa using (fun h => hp h.symm)
      simp [List.any_cons, List.lookup, hp, this, ih]

theorem lookup_updateNodeAttrs_self (nodes : List (Nat × NodeAttrs))
    (id : Nat) (f : NodeAttrs → NodeAttrs) :
    (updateNodeAttrs nodes id f).lookup id = (nodes.lookup id).map f := by
  induction nodes with
  | nil => rfl
  | cons p rest ih =>
    unfold updateNodeAttrs at ih ⊢
    rw [List.map_cons]
    by_cases hp : p.1 = id
    · rw [if_pos hp]
      have hbeq : (id == p.1) = true := by simpa using hp.symm
      simp only [List.lookup, hbeq]
      rfl
    · rw [if_neg hp]
      have hbeq : (id == p.1) = false := by simpa using (fun h => hp h.symm)
      simp only [List.lookup, hbeq]
      exact ih

theorem lookup_updateNodeAttrs_ne (nodes : List (Nat × NodeAttrs))
    (id : Nat) (f : NodeAttrs → NodeAttrs) (i : Nat) (h : i ≠ id) :
    (updateNodeAttrs nodes id f).lookup i = nodes.lookup i := by
  induction nodes with
  | nil => rfl
  | cons p rest ih =>
    unfold updateNodeAttrs at ih ⊢
    rw [List.map_cons]
    by_cases hp : p.1 = id
    · have hne : (i == p.1) = false := by
        simp only [beq_eq_false_iff_ne, ne_eq]
        rw [hp]
        exact h
      rw [if_pos hp]
      have hne2 : (i == (p.1, f p.2).1) = false := hne
      simp only [List.lookup, hne, hne2]
      exact ih
    · rw [if_neg hp]
      by_cases hip : i = p.1
      · have hbeq : (i == p.1) = true := by simpa using hip
        simp only [List.lookup, hbeq]
      · have hbeq : (i == p.1) = false := by simpa using hip
        simp only [List.lookup, hbeq]
        exact ih

/-- `setNodeLabel` never changes a node's `token` attribute. -/
theorem tok_setNodeLabel (nodes : List (Nat × NodeAttrs)) (id : Nat)
    (l : String) (i : Nat) : tok (setNodeLabel nodes id l) i = tok nodes i := by
  unfold tok setNodeLabel
  by_cases h : i = id
  · subst h
    rw [lookup_updateNodeAttrs_self]
    cases nodes.lookup i <;> rfl
  · rw [lookup_updateNodeAttrs_ne _ _ _ _ h]

/-- `ensureNode` never changes a node's `token` attribute. -/
theorem tok_ensureNode (nodes : List (Nat × NodeAttrs)) (id i : Nat) :
    tok (ensureNode nodes id) i = tok nodes i := by
  unfold tok ensureNode
  split
  · rfl
  · cases hl : nodes.lookup i with
    | some a => rw [lookup_append_some _ _ _ _ hl]
    | none =>
      rw [lookup_append_none _ _ _ hl]
      by_cases hi : i = id
      · subst hi
        simp [List.lookup]
      · have hne : (i == id) = false := by simpa using hi
        simp [List.lookup, hne]

/-- Appending a node with a fresh id leaves other ids' `token`
attributes unchanged. -/
theorem tok_append_ne (nodes : List (Nat × NodeAttrs)) (id : Nat)
    (a : NodeAttrs) (i : Nat) (h : i ≠ id) :
    tok (nodes ++ [(id, a)]) i = tok nodes i := by
  unfold tok
  cases hl : nodes.lookup i with
  | some b => rw [lookup_append_some _ _ _ _ hl]
  | none =>
    rw [lookup_append_none _ _ _ hl]
    have hne : (i == id) = false := by simpa using h
    simp [List.lookup, hne]

/-- The `token` attribute of a freshly appended node. -/
theorem tok_append_fresh (nodes : List (Nat × NodeAttrs)) (id : Nat)
    (a : NodeAttrs) (h : nodes.lookup id = none) :
    tok (nodes ++ [(id, a)]) id = a.token := by
  unfold tok
  rw [lookup_append_none _ _ _ h]
  simp [List.lookup]

/-- `addNode` with a fresh id is a plain append. -/
theorem addNode_fresh (nodes : List (Nat × NodeAttrs)) (id : Nat)
    (a : NodeAttrs) (h : nodes.lookup id = none) :
    addNode nodes id a = nodes ++ [(id, a)] := by
  unfold addNode
  rw [any_key_isSome, h]
  rfl

/-- Keys of `updateNodeAttrs` are the original keys. -/
theorem bound_updateNodeAttrs (nodes : List (Nat × NodeAttrs)) (id : Nat)
    (f : NodeAttrs → NodeAttrs) (n : Nat) (hb : ∀ p ∈ nodes, p.1 ≤ n) :
    ∀ p ∈ updateNodeAttrs nodes id f, p.1 ≤ n := by
  intro p hp
  unfold updateNodeAttrs at hp
  rcases List.mem_map.1 hp with ⟨q, hq, hpq⟩
  subst hpq
  by_cases h : q.1 = id
  · rw [if_pos h]
    exact hb q hq
  · rw [if_neg h]
    exact hb q hq

/-- Keys of `ensureNode nodes id` are bounded when `id` is. -/
theorem bound_ensureNode (nodes : List (Nat × NodeAttrs)) (id n : Nat)
    (hb : ∀ p ∈ nodes, p.1 ≤ n) (hid : id ≤ n) :
    ∀ p ∈ ensureNode nodes id, p.1 ≤ n := by
  intro p hp
  unfold ensureNode at hp
  split at hp
  · exact hb p hp
  · rcases List.mem_append.1 hp with h | h
    · exact hb p h
    · rcases List.mem_singleton.1 h with rfl
      exact hid

/-- Main invariant of the subtree walk: node ids only grow, all node
keys and token ids stay bounded by the id counter, `token` attributes
of existing nodes are preserved, and the walk appends exactly the
subtree leaves (as token nodes) to the token sequence. -/
theorem parseSubtrees_spec : ∀ (ts : PTreeList) (st : PTBDocumentGraph)
    (r : Nat),
    (∀ p ∈ st.nodes, p.1 ≤ st.nodeId) →
    (∀ i ∈ st.tokens, i ≤ st.nodeId) →
    r ≤ st.nodeId →
    st.nodeId ≤ (parseSubtrees st r ts).nodeId ∧
    (∀ p ∈ (parseSubtrees st r ts).nodes, p.1 ≤ (parseSubtrees st r ts).nodeId) ∧
    (∀ i ∈ (parseSubtrees st r ts).tokens, i ≤ (parseSubtrees st r ts).nodeId) ∧
    (∀ i, i ≤ st.nodeId →
      tokenAttr (parseSubtrees st r ts) i = tokenAttr st i) ∧
    (parseSubtrees st r ts).tokens.map (tokenAttr (parseSubtrees st r ts)) =
      st.tokens.map (tokenAttr st) ++ (PTreeList.leaves ts).map some
  | .nil, st, r => by
    intro hb htok _
    refine ⟨le_refl _, hb, htok, fun i _ => rfl, ?_⟩
    simp [parseSubtrees, PTreeList.leaves]
  | .cons (.leaf s) rest, st, r => by
    intro hb htok hr
    have hfresh : st.nodes.lookup (st.nodeId + 1) = none :=
      lookup_bound_none st.nodes st.nodeId _ hb (by omega)
    have haddn : addNode st.nodes (st.nodeId + 1) ⟨some s, some s⟩ =
        st.nodes ++ [(st.nodeId + 1, ⟨some s, some s⟩)] :=
      addNode_fresh _ _ _ hfresh
    have hunf : parseSubtrees st r (.cons (.leaf s) rest) =
        parseSubtrees (addEdgeSt
          { st with nodeId := st.nodeId + 1,
                    tokens := st.tokens ++ [st.nodeId + 1],
                    nodes := addNode st.nodes (st.nodeId + 1) ⟨some s, some s⟩ }
          r (st.nodeId + 1) .spanning) r rest := rfl
    set st2 := addEdgeSt
      { st with nodeId := st.nodeId + 1,
                tokens := st.tokens ++ [st.nodeId + 1],
                nodes := addNode st.nodes (st.nodeId + 1) ⟨some s, some s⟩ }
      r (st.nodeId + 1) .spanning with hst2
    have hn2 : st2.nodeId = st.nodeId + 1 := rfl
    have ht2 : st2.tokens = st.tokens ++ [st.nodeId + 1] := rfl
    have hnodes2 : st2.nodes =
        ensureNode (ensureNode
          (st.nodes ++ [(st.nodeId + 1, ⟨some s, some s⟩)]) r) (st.nodeId + 1) := by
      rw [hst2]
      show ensureNode (ensureNode (addNode st.nodes (st.nodeId + 1) _) r) _ = _
      rw [haddn]
    have hb1 : ∀ p ∈ st.nodes ++ [(st.nodeId + 1, (⟨some s, some s⟩ : NodeAttrs))],
        p.1 ≤ st.nodeId + 1 := by
      intro p hp
      rcases List.mem_append.1 hp with h | h
      · have := hb p h; omega
      · rcases List.mem_singleton.1 h with rfl; rfl
    have hb2 : ∀ p ∈ st2.nodes, p.1 ≤ st2.nodeId := by
      rw [hnodes2, hn2]
      exact bound_ensureNode _ _ _
        (bound_ensureNode _ _ _ hb1 (by omega)) (by omega)
    have htok2 : ∀ i ∈ st2.tokens, i ≤ st2.nodeId := by
      rw [ht2, hn2]
      intro i hi
      rcases List.mem_append.1 hi with h | h
      · have := htok i h; omega
      · rcases List.mem_singleton.1 h with rfl; rfl
    have hr2 : r ≤ st2.nodeId := by rw [hn2]; omega
    have hD2 : ∀ i, i ≤ st.nodeId → tokenAttr st2 i = tokenAttr st i := by
      intro i hi
      show tok st2.nodes i = tok st.nodes i
      rw [hnodes2, tok_ensureNode, tok_ensureNode,
        tok_append_ne _ _ _ _ (by omega)]
    have hid2 : tokenAttr st2 (st.nodeId + 1) = some s := by
      show tok st2.nodes _ = some s
      rw [hnodes2, tok_ensureNode, tok_ensureNode, tok_append_fresh _ _ _ hfresh]
    obtain ⟨A2, B2, C2, D2, E2⟩ := parseSubtrees_spec rest st2 r hb2 htok2 hr2
    rw [hunf]
    refine ⟨by rw [hn2] at A2; omega, B2, C2, ?_, ?_⟩
    · intro i hi
      rw [D2 i (by rw [hn2]; omega), hD2 i hi]
    · rw [E2, ht2, List.map_append]
      have hmc : st.tokens.map (tokenAttr st2) = st.tokens.map (tokenAttr st) :=
        List.map_congr_left (fun i hi => hD2 i (htok i hi))
      rw [hmc]
      show _ ++ [tokenAttr st2 (st.nodeId + 1)] ++ _ = _
      rw [hid2]
      show _ = _ ++ (PTreeList.leaves (.cons (.leaf s) rest)).map some
      simp [PTreeList.leaves, PTree.leaves]
  | .cons (.node l cs) rest, st, r => by
    intro hb htok hr
    have hfresh : st.nodes.lookup (st.nodeId + 1) = none :=
      lookup_bound_none st.nodes st.nodeId _ hb (by omega)
    have haddn : addNode st.nodes (st.nodeId + 1) ⟨some l, none⟩ =
        st.nodes ++ [(st.nodeId + 1, ⟨some l, none⟩)] :=
      addNode_fresh _ _ _ hfresh
    have hunf : parseSubtrees st r (.cons (.node l cs) rest) =
        parseSubtrees (parseSubtrees
          { addEdgeSt
              { st with nodeId := st.nodeId + 1,
                        nodes := addNode st.nodes (st.nodeId + 1) ⟨some l, none⟩ }
              r (st.nodeId + 1) .dominance with
            nodes := setNodeLabel (addEdgeSt
              { st with nodeId := st.nodeId + 1,
                        nodes := addNode st.nodes (st.nodeId + 1) ⟨some l, none⟩ }
              r (st.nodeId + 1) .dominance).nodes (st.nodeId + 1) l }
          (st.nodeId + 1) cs) r rest := rfl
    set stm := ({ addEdgeSt
        { st with nodeId := st.nodeId + 1,
                  nodes := addNode st.nodes (st.nodeId + 1) ⟨some l, none⟩ }
        r (st.nodeId + 1) .dominance with
      nodes := setNodeLabel (addEdgeSt
        { st with nodeId := st.nodeId + 1,
                  nodes := addNode st.nodes (st.nodeId + 1) ⟨some l, none⟩ }
        r (st.nodeId + 1) .dominance).nodes (st.nodeId + 1) l } :
      PTBDocumentGraph) with hstm
    have hn2 : stm.nodeId = st.nodeId + 1 := rfl
    have ht2 : stm.tokens = st.tokens := rfl
    have hnodes2 : stm.nodes =
        setNodeLabel (ensureNode (ensureNode
          (st.nodes ++ [(st.nodeId + 1, ⟨some l, none⟩)]) r) (st.nodeId + 1))
          (st.nodeId + 1) l := by
      rw [hstm]
      show setNodeLabel (ensureNode (ensureNode (addNode st.nodes _ _) r) _) _ _ = _
      rw [haddn]
    have hb1 : ∀ p ∈ st.nodes ++ [(st.nodeId + 1, (⟨some l, none⟩ : NodeAttrs))],
        p.1 ≤ st.nodeId + 1 := by
      intro p hp
      rcases List.mem_append.1 hp with h | h
      · have := hb p h; omega
      · rcases List.mem_singleton.1 h with rfl; rfl
    have hb2 : ∀ p ∈ stm.nodes, p.1 ≤ stm.nodeId := by
      rw [hnodes2, hn2]
      exact bound_updateNodeAttrs _ _ _ _
        (bound_ensureNode _ _ _
          (bound_ensureNode _ _ _ hb1 (by omega)) (by omega))
    have htok2 : ∀ i ∈ stm.tokens, i ≤ stm.nodeId := by
      rw [ht2, hn2]
      intro i hi
      have := htok i hi; omega
    have hD2 : ∀ i, i ≤ st.nodeId → tokenAttr stm i = tokenAttr st i := by
      intro i hi
      show tok stm.nodes i = tok st.nodes i
      rw [hnodes2, tok_setNodeLabel, tok_ensureNode, tok_ensureNode,
        tok_append_ne _ _ _ _ (by omega)]
    obtain ⟨A1, B1, C1, D1, E1⟩ :=
      parseSubtrees_spec cs stm (st.nodeId + 1) hb2 htok2 (le_of_eq hn2.symm)
    obtain ⟨A2, B2, C2, D2, E2⟩ :=
      parseSubtrees_spec rest (parseSubtrees stm (st.nodeId + 1) cs) r
        B1 C1 (by rw [hn2] at A1; omega)
    rw [hunf]
    refine ⟨?_, B2, C2, ?_, ?_⟩
    · rw [hn2] at A1; omega
    · intro i hi
      rw [D2 i (le_trans (by rw [hn2]; omega) A1),
        D1 i (by rw [hn2]; omega), hD2 i hi]
    · rw [E2, E1, ht2]
      have hmc : st.tokens.map (tokenAttr stm) = st.tokens.map (tokenAttr st) :=
        List.map_congr_left (fun i hi => hD2 i (htok i hi))
      rw [hmc]
      show _ = _ ++ (PTreeList.leaves (.cons (.node l cs) rest)).map some
      simp [PTreeList.leaves, PTree.leaves]
termination_by ts => sizeOf ts

/-- `_add_sentence` preserves existing token attributes and appends
exactly the sentence tree's leaves to the token sequence. -/
theorem add_sentence_spec (st : PTBDocumentGraph) (sent : String × PTreeList)
    (hb : ∀ p ∈ st.nodes, p.1 ≤ st.nodeId)
    (htok : ∀ i ∈ st.tokens, i ≤ st.nodeId) :
    st.nodeId ≤ (add_sentence st sent).nodeId ∧
    (∀ p ∈ (add_sentence st sent).nodes, p.1 ≤ (add_sentence st sent).nodeId) ∧
    (∀ i ∈ (add_sentence st sent).tokens, i ≤ (add_sentence st sent).nodeId) ∧
    (∀ i, i ≤ st.nodeId → tokenAttr (add_sentence st sent) i = tokenAttr st i) ∧
    (add_sentence st sent).tokens.map (tokenAttr (add_sentence st sent)) =
      st.tokens.map (tokenAttr st) ++ (sent.2.leaves).map some := by
  have hunf : add_sentence st sent =
      { parseSubtrees
          { addEdgeSt { st with sentences := st.sentences ++ [st.nodeId] }
              0 st.nodeId .spanning with
            nodes := setNodeLabel (addEdgeSt
              { st with sentences := st.sentences ++ [st.nodeId] }
              0 st.nodeId .spanning).nodes st.nodeId sent.1 }
          st.nodeId sent.2 with
        nodeId := (parseSubtrees
          { addEdgeSt { st with sentences := st.sentences ++ [st.nodeId] }
              0 st.nodeId .spanning with
            nodes := setNodeLabel (addEdgeSt
              { st with sentences := st.sentences ++ [st.nodeId] }
              0 st.nodeId .spanning).nodes st.nodeId sent.1 }
          st.nodeId sent.2).nodeId + 1 } := rfl
  set stm := ({ addEdgeSt { st with sentences := st.sentences ++ [st.nodeId] }
      0 st.nodeId .spanning with
    nodes := setNodeLabel (addEdgeSt
      { st with sentences := st.sentences ++ [st.nodeId] }
      0 st.nodeId .spanning).nodes st.nodeId sent.1 } : PTBDocumentGraph)
    with hstm
  have hn2 : stm.nodeId = st.nodeId := rfl
  have ht2 : stm.tokens = st.tokens := rfl
  have hnodes2 : stm.nodes =
      setNodeLabel (ensureNode (ensureNode st.nodes 0) st.nodeId)
        st.nodeId sent.1 := rfl
  have hb2 : ∀ p ∈ stm.nodes, p.1 ≤ stm.nodeId := by
    rw [hnodes2, hn2]
    exact bound_updateNodeAttrs _ _ _ _
      (bound_ensureNode _ _ _
        (bound_ensureNode _ _ _ hb (by omega)) (le_refl _))
  have htok2 : ∀ i ∈ stm.tokens, i ≤ stm.nodeId := by
    rw [ht2, hn2]
    exact htok
  have hD2 : ∀ i, tokenAttr stm i = tokenAttr st i := by
    intro i
    show tok stm.nodes i = tok st.nodes i
    rw [hnodes2, tok_setNodeLabel, tok_ensureNode, tok_ensureNode]
  obtain ⟨A1, B1, C1, D1, E1⟩ :=
    parseSubtrees_spec sent.2 stm st.nodeId hb2 htok2 (le_of_eq hn2.symm)
  rw [hunf]
  have hattr : ∀ i, tokenAttr { parseSubtrees stm st.nodeId sent.2 with
      nodeId := (parseSubtrees stm st.nodeId sent.2).nodeId + 1 } i =
      tokenAttr (parseSubtrees stm st.nodeId sent.2) i := fun i => rfl
  refine ⟨?_, ?_, ?_, ?_, ?_⟩
  · show st.nodeId ≤ (parseSubtrees stm st.nodeId sent.2).nodeId + 1
    rw [hn2] at A1; omega
  · intro p hp
    show p.1 ≤ (parseSubtrees stm st.nodeId sent.2).nodeId + 1
    have := B1 p hp; omega
  · intro i hi
    show i ≤ (parseSubtrees stm st.nodeId sent.2).nodeId + 1
    have := C1 i hi; omega
  · intro i hi
    rw [hattr, D1 i (by rw [hn2]; omega), hD2 i]
  · show (parseSubtrees stm st.nodeId sent.2).tokens.map
        (tokenAttr { parseSubtrees stm st.nodeId sent.2 with
          nodeId := (parseSubtrees stm st.nodeId sent.2).nodeId + 1 }) = _
    have : (parseSubtrees stm st.nodeId sent.2).tokens.map
        (tokenAttr { parseSubtrees stm st.nodeId sent.2 with
          nodeId := (parseSubtrees stm st.nodeId sent.2).nodeId + 1 }) =
        (parseSubtrees stm st.nodeId sent.2).tokens.map
          (tokenAttr (parseSubtrees stm st.nodeId sent.2)) :=
      List.map_congr_left (fun i _ => hattr i)
    rw [this, E1, ht2]
    have hmc : st.tokens.map (tokenAttr stm) = st.tokens.map (tokenAttr st) :=
      List.map_congr_left (fun i _ => hD2 i)
    rw [hmc]

/-- Folding `_add_sentence` appends the leaves of every sentence, in
order. -/
theorem foldl_add_sentence_spec (sents : List (String × PTreeList)) :
    ∀ st, (∀ p ∈ st.nodes, p.1 ≤ st.nodeId) →
    (∀ i ∈ st.tokens, i ≤ st.nodeId) →
    (sents.foldl add_sentence st).tokens.map
        (tokenAttr (sents.foldl add_sentence st)) =
      st.tokens.map (tokenAttr st) ++ (sentenceLeaves sents).map some := by
  induction sents with
  | nil =>
    intro st _ _
    simp [sentenceLeaves]
  | cons s rest ih =>
    intro st hb htok
    obtain ⟨A, B, C, D, E⟩ := add_sentence_spec st s hb htok
    rw [List.foldl_cons, ih (add_sentence st s) B C, E]
    show _ = _ ++ (sentenceLeaves (s :: rest)).map some
    simp [sentenceLeaves, List.map_append, List.append_assoc]

/-- C6: the token nodes created by the PTB builder are exactly the
leaf strings of the input trees: the `tokens` list has one entry per
leaf, and reading each token node's surface attribute, in `tokens`
order, yields the leaves in their left-to-right order. -/
theorem ofSentences_token_leaves (sents : List (String × PTreeList)) :
    (PTBDocumentGraph.ofSentences sents none).tokens.map
        (tokenAttr (PTBDocumentGraph.ofSentences sents none)) =
      (sentenceLeaves sents).map some ∧
    (PTBDocumentGraph.ofSentences sents none).tokens.length =
      (sentenceLeaves sents).length := by
  have hb : ∀ p ∈ initPTBGraph.nodes, p.1 ≤ initPTBGraph.nodeId := by
    intro p hp
    rcases List.mem_singleton.1 hp with rfl
    simp [initPTBGraph]
  have htok : ∀ i ∈ initPTBGraph.tokens, i ≤ initPTBGraph.nodeId := by
    intro i hi
    simp [initPTBGraph] at hi
  have h := foldl_add_sentence_spec sents initPTBGraph hb htok
  have hof : PTBDocumentGraph.ofSentences sents none =
      sents.foldl add_sentence initPTBGraph := rfl
  rw [hof, h]
  have hnil : initPTBGraph.tokens.map (tokenAttr initPTBGraph) = [] := rfl
  rw [hnil, List.nil_append]
  refine ⟨rfl, ?_⟩
  have h2 := congrArg List.length h
  simp only [List.length_map, List.length_append] at h2
  simpa [initPTBGraph] using h2

/-! ## C5: events of the rendering scan, well-nestedness -/

/-- Number of occurrences of a character in a string. -/
def countChar (ch : Char) (s : String) : Nat := s.toList.count ch

/-- One emission event of the rendering scan: a token's surface
string, an opening bracket pushed for a markable, a chain-annotated
closing group popped for a markable, or the token separator. -/
inductive BrEv where
  | tok (s : String)
  | openm (m : String)
  | closegrp (m : String) (c : String)
  | sep
deriving DecidableEq

/-- The text emitted for one event. -/
def renderEv : BrEv → String
  | .tok s => s
  | .openm _ => "["
  | .closegrp _ c => "]_\x7b" ++ c ++ "\x7d"
  | .sep => " "

/-- The text emitted for an event list. -/
def renderEvs (evs : List BrEv) : String := String.join (evs.map renderEv)

/-- Event form of `formatClosing`: one closing-group event per popped
markable, in pop order. -/
def groupEvents (m2c : String → Option String) :
    List String → Except PyErr (List BrEv)
  | [] => .ok []
  | m :: ms =>
    match m2c m with
    | none => .error .keyError
    | some c => do
      let rest ← groupEvents m2c ms
      .ok (.closegrp m c :: rest)

/-- Event form of `processToken`. -/
def tokenEvents (g : DocGraph) (opening closing : String → List String)
    (m2c : String → Option String) (tokenId : String) (stack : List String) :
    Except PyErr (List BrEv × List String) :=
  if opening tokenId ≠ [] then
    let stack1 := (opening tokenId).reverse ++ stack
    if closing tokenId ≠ [] then do
      let (popped, stack2) ← popN (closing tokenId).length stack1
      let groups ← groupEvents m2c popped
      .ok ((opening tokenId).map .openm ++ [.tok (g.surface tokenId)] ++
        groups ++ [.sep], stack2)
    else
      .ok ((opening tokenId).map .openm ++ [.tok (g.surface tokenId), .sep],
        stack1)
  else if closing tokenId ≠ [] then do
    let (popped, stack2) ← popN (closing tokenId).length stack
    let groups ← groupEvents m2c popped
    .ok ([.tok (g.surface tokenId)] ++ groups ++ [.sep], stack2)
  else
    .ok ([.tok (g.surface tokenId), .sep], stack)

/-- Event form of `scanTokens`. -/
def scanEvents (g : DocGraph) (opening closing : String → List String)
    (m2c : String → Option String) :
    List String → List String → Except PyErr (List BrEv × List String)
  | [], stack => .ok ([], stack)
  | tid :: rest, stack => do
    let (evs, stack') ← tokenEvents g opening closing m2c tid stack
    let (restEvs, finalStack) ← scanEvents g opening closing m2c rest stack'
    .ok (evs ++ restEvs, finalStack)

/-- Well-formed anchors of one markable: a non-empty span whose first
and last stored tokens are document tokens, the first not after the
last in document order. -/
def anchorsOkB (g : DocGraph) (m : String) : Bool :=
  match (g.span m).head?, (g.span m).getLast? with
  | some a, some b =>
    (a ∈ g.tokens : Bool) && (b ∈ g.tokens : Bool) &&
      decide (g.tokens.indexOf a ≤ g.tokens.indexOf b)
  | _, _ => false

/-- Two markables do not cross: their document-order spans are
disjoint or nested. -/
def nonCrossingB (g : DocGraph) (m1 m2 : String) : Bool :=
  match (g.span m1).head?, (g.span m1).getLast?,
      (g.span m2).head?, (g.span m2).getLast? with
  | some a1, some b1, some a2, some b2 =>
    let o1 := g.tokens.indexOf a1
    let c1 := g.tokens.indexOf b1
    let o2 := g.tokens.indexOf a2
    let c2 := g.tokens.indexOf b2
    decide (c1 < o2) || decide (c2 < o1) ||
      (decide (o1 ≤ o2) && decide (c2 ≤ c1)) ||
      (decide (o2 ≤ o1) && decide (c1 ≤ c2))
  | _, _, _, _ => false

/-- A document graph whose markables are all well-nested: distinct
document tokens, non-empty chains, every markable anchored at document
tokens with the opening anchor not after the closing anchor, and no
two markables crossing. -/
def WellNested (g : DocGraph) : Prop :=
  g.tokens.Nodup ∧
  (∀ ch ∈ g.pointingChains, ch ≠ []) ∧
  (∀ m ∈ g.pointingChains.flatten, anchorsOkB g m = true) ∧
  (∀ m1 ∈ g.pointingChains.flatten, ∀ m2 ∈ g.pointingChains.flatten,
    nonCrossingB g m1 m2 = true)

instance (g : DocGraph) : Decidable (WellNested g) := by
  unfold WellNested
  infer_instance

/-- No token surface and no markable/chain identifier contains a
bracket character (the output's markup brackets are exactly those the
renderer emits). -/
def BracketFree (g : DocGraph) : Prop :=
  (∀ t ∈ g.tokens, '[' ∉ (g.surface t).toList ∧ ']' ∉ (g.surface t).toList) ∧
  (∀ m ∈ g.pointingChains.flatten, '[' ∉ m.toList ∧ ']' ∉ m.toList)

instance (g : DocGraph) : Decidable (BracketFree g) := by
  unfold BracketFree
  infer_instance

theorem stringJoin_cons (x : String) (xs : List String) :
    String.join (x :: xs) = x ++ String.join xs := by
  show List.foldl (· ++ ·) ("" ++ x) xs = x ++ List.foldl (· ++ ·) "" xs
  have h : ("" : String) ++ x = x ++ "" := by simp
  rw [h, strFoldlAppend]

theorem stringJoin_append (l1 l2 : List String) :
    String.join (l1 ++ l2) = String.join l1 ++ String.join l2 := by
  induction l1 with
  | nil => simp [String.join]
  | cons x xs ih =>
    rw [List.cons_append, stringJoin_cons, stringJoin_cons, ih,
      String.append_assoc]

theorem renderEvs_append (l1 l2 : List BrEv) :
    renderEvs (l1 ++ l2) = renderEvs l1 ++ renderEvs l2 := by
  unfold renderEvs
  rw [List.map_append, stringJoin_append]

/-- membership in a prefix, characterized by `indexOf`. -/
theorem indexOf_lt_of_mem_take (l : List String) (x : String) (k : Nat)
    (hx : x ∈ l.take k) : l.indexOf x < k := by
  have h1 : l.indexOf x = (l.take k).indexOf x := by
    conv_lhs => rw [← List.take_append_drop k l]
    exact List.indexOf_append_of_mem hx
  have h2 : (l.take k).indexOf x < (l.take k).length :=
    List.indexOf_lt_length.2 hx
  have h3 : (l.take k).length ≤ k := by
    simp [List.length_take]
  omega

theorem mem_take_of_indexOf_lt (l : List String) (x : String) (k : Nat)
    (hx : x ∈ l) (h : l.indexOf x < k) : x ∈ l.take k := by
  by_contra hnot
  have hsplit : l.indexOf x = (l.take k).length + (l.drop k).indexOf x := by
    conv_lhs => rw [← List.take_append_drop k l]
    exact List.indexOf_append_of_not_mem hnot
  by_cases hk : k ≤ l.length
  · have : (l.take k).length = k := by simp [List.length_take]; omega
    omega
  · have : l.take k = l := List.take_of_length_le (by omega)
    rw [this] at hnot
    exact hnot hx

theorem renderEvs_openm (l : List String) :
    renderEvs (l.map .openm) = String.mk (List.replicate l.length '[') := by
  induction l with
  | nil => rfl
  | cons x xs ih =>
    show renderEvs (.openm x :: xs.map .openm) = _
    unfold renderEvs at ih ⊢
    rw [List.map_cons, stringJoin_cons, ih]
    rfl

theorem renderEvs_singleton (e : BrEv) : renderEvs [e] = renderEv e := by
  show String.join [renderEv e] = renderEv e
  rw [stringJoin_cons]
  show renderEv e ++ "" = renderEv e
  simp

theorem renderEvs_tok_sep (s : String) :
    renderEvs [.tok s, .sep] = s ++ " " := by
  show renderEvs ([.tok s] ++ [.sep]) = _
  rw [renderEvs_append, renderEvs_singleton, renderEvs_singleton]
  rfl

/-- `formatClosing` emits exactly the rendering of the closing-group
events. -/
theorem formatClosing_eq_groupEvents (m2c : String → Option String)
    (l : List String) :
    formatClosing m2c l = (groupEvents m2c l).map renderEvs := by
  induction l with
  | nil => rfl
  | cons m ms ih =>
    unfold formatClosing groupEvents
    cases hm : m2c m with
    | none => rfl
    | some cid =>
      cases hge : groupEvents m2c ms with
      | error e =>
        rw [hge] at ih
        simp only [ih, hge]
        rfl
      | ok evs =>
        rw [hge] at ih
        simp only [ih, hge, Except.map, exceptBind_ok]
        show Except.ok ("]_\x7b" ++ cid ++ "\x7d" ++ renderEvs evs) =
          Except.ok (renderEvs (.closegrp m cid :: evs))
        unfold renderEvs
        rw [List.map_cons, stringJoin_cons]
        rfl

/-- `processToken` emits exactly the rendering of its token events
and computes the same stack. -/
theorem processToken_eq_tokenEvents (g : DocGraph)
    (opening closing : String → List String) (m2c : String → Option String)
    (tid : String) (stack : List String) :
    processToken g opening closing m2c tid stack =
      (tokenEvents g opening closing m2c tid stack).map
        (fun p => (renderEvs p.1, p.2)) := by
  unfold processToken tokenEvents
  by_cases hop : opening tid = []
  · simp only [hop, ne_eq, not_true_eq_false, if_false]
    by_cases hcl : closing tid = []
    · simp only [hcl, ne_eq, not_true_eq_false, if_false]
      rw [show (Except.ok ([BrEv.tok (g.surface tid), BrEv.sep], stack) :
          Except PyErr (List BrEv × List String)).map
          (fun p => (renderEvs p.1, p.2)) =
        Except.ok (renderEvs [BrEv.tok (g.surface tid), BrEv.sep], stack)
          from rfl]
      rw [renderEvs_tok_sep]
    · rw [if_pos hcl, if_pos hcl]
      unfold gen_closing_string
      cases hpop : popN (closing tid).length stack with
      | error e => rfl
      | ok ps =>
        obtain ⟨popped, stack2⟩ := ps
        simp only [exceptBind_ok]
        rw [formatClosing_eq_groupEvents]
        cases hge : groupEvents m2c popped with
        | error e => rfl
        | ok groups =>
          simp only [Except.map, exceptBind_ok]
          show Except.ok (g.surface tid ++ renderEvs groups ++ " ", stack2) =
            Except.ok (renderEvs ([.tok (g.surface tid)] ++ groups ++ [.sep]),
              stack2)
          rw [renderEvs_append, renderEvs_append, renderEvs_singleton,
            renderEvs_singleton]
          rw [show renderEv (BrEv.tok (g.surface tid)) = g.surface tid from rfl,
            show renderEv BrEv.sep = " " from rfl, String.append_assoc]
  · rw [if_pos hop, if_pos hop]
    by_cases hcl : closing tid = []
    · simp only [hcl, ne_eq, not_true_eq_false, if_false]
      rw [show (Except.ok (((opening tid).map BrEv.openm) ++
          [BrEv.tok (g.surface tid), BrEv.sep],
          (opening tid).reverse ++ stack) :
          Except PyErr (List BrEv × List String)).map
          (fun p => (renderEvs p.1, p.2)) =
        Except.ok (renderEvs (((opening tid).map BrEv.openm) ++
          [BrEv.tok (g.surface tid), BrEv.sep]),
          (opening tid).reverse ++ stack) from rfl]
      rw [renderEvs_append, renderEvs_openm, renderEvs_tok_sep,
        String.append_assoc]
    · rw [if_pos hcl, if_pos hcl]
      unfold gen_closing_string
      cases hpop : popN (closing tid).length ((opening tid).reverse ++ stack) with
      | error e => rfl
      | ok ps =>
        obtain ⟨popped, stack2⟩ := ps
        simp only [exceptBind_ok]
        rw [formatClosing_eq_groupEvents]
        cases hge : groupEvents m2c popped with
        | error e => rfl
        | ok groups =>
          simp only [Except.map, exceptBind_ok]
          show Except.ok (String.mk (List.replicate (opening tid).length '[') ++
              g.surface tid ++ renderEvs groups ++ " ", stack2) =
            Except.ok (renderEvs ((opening tid).map .openm ++
              [.tok (g.surface tid)] ++ groups ++ [.sep]), stack2)
          rw [renderEvs_append, renderEvs_append, renderEvs_append,
            renderEvs_openm, renderEvs_singleton, renderEvs_singleton]
          rfl

/-- `scanTokens` emits exactly the rendering of the scan's events and
computes the same final stack. -/
theorem scanTokens_eq_scanEvents (g : DocGraph)
    (opening closing : String → List String) (m2c : String → Option String) :
    ∀ (ts : List String) (stack : List String),
    scanTokens g opening closing m2c ts stack =
      (scanEvents g opening closing m2c ts stack).map
        (fun p => (renderEvs p.1, p.2)) := by
  intro ts
  induction ts with
  | nil =>
    intro stack
    show Except.ok ("", stack) = Except.ok (renderEvs [], stack)
    rfl
  | cons tid rest ih =>
    intro stack
    unfold scanTokens scanEvents
    rw [processToken_eq_tokenEvents]
    cases hte : tokenEvents g opening closing m2c tid stack with
    | error e => rfl
    | ok p =>
      obtain ⟨evs, stack'⟩ := p
      simp only [Except.map, exceptBind_ok]
      rw [ih stack']
      cases hse : scanEvents g opening closing m2c rest stack' with
      | error e => rfl
      | ok q =>
        obtain ⟨restEvs, finalStack⟩ := q
        simp only [Except.map, exceptBind_ok]
        rw [renderEvs_append]

/-- `groupEvents` on fully chain-mapped markables: one closing-group
event per markable, in order. -/
theorem groupEvents_ok (m2c : String → Option String) (l : List String)
    (h : ∀ m ∈ l, (m2c m).isSome) :
    groupEvents m2c l = .ok (l.map (fun m => .closegrp m ((m2c m).getD ""))) := by
  induction l with
  | nil => rfl
  | cons m ms ih =>
    have hm := h m (by simp)
    cases hm2 : m2c m with
    | none => rw [hm2] at hm; simp at hm
    | some cid =>
      have hms := ih (fun x hx => h x (by simp [hx]))
      simp [groupEvents, hm2, hms, exceptBind_ok]

/-- One scan step, fully characterized: the events are the opens, the
token, one closing group per popped markable (the top
`len(closing[token])` stack entries after the opens are pushed), and
the separator; the new stack drops the popped entries. -/
theorem tokenEvents_spec (g : DocGraph) (o c : String → List String)
    (m2c : String → Option String) (tid : String) (stack : List String)
    (hm2cO : ∀ m ∈ o tid, (m2c m).isSome)
    (hm2cS : ∀ m ∈ stack, (m2c m).isSome)
    (hq : (c tid).length ≤ stack.length + (o tid).length) :
    tokenEvents g o c m2c tid stack = .ok
      ((o tid).map .openm ++ [.tok (g.surface tid)] ++
        (((o tid).reverse ++ stack).take (c tid).length).map
          (fun m => .closegrp m ((m2c m).getD "")) ++ [.sep],
       ((o tid).reverse ++ stack).drop (c tid).length) := by
  have hq' : (c tid).length ≤ ((o tid).reverse ++ stack).length := by
    simp only [List.length_append, List.length_reverse]
    omega
  have hall : ∀ m ∈ ((o tid).reverse ++ stack).take (c tid).length,
      (m2c m).isSome := by
    intro m hm
    have := List.take_subset _ _ hm
    rcases List.mem_append.1 this with h1 | h1
    · exact hm2cO m (List.mem_reverse.1 h1)
    · exact hm2cS m h1
  unfold tokenEvents
  by_cases hop : o tid = []
  · simp only [hop, ne_eq, not_true_eq_false, if_false]
    by_cases hcl : c tid = []
    · simp [hop, hcl]
    · rw [if_pos hcl]
      rw [hop] at hq' hall
      simp only [List.reverse_nil, List.nil_append] at hq' hall
      simp only [hop, List.reverse_nil, List.nil_append, List.map_nil]
      rw [popN_ok _ _ hq']
      simp only [exceptBind_ok]
      rw [groupEvents_ok _ _ hall]
      simp [exceptBind_ok]
  · rw [if_pos hop]
    by_cases hcl : c tid = []
    · simp only [hcl, ne_eq, not_true_eq_false, if_false]
      simp [hcl]
    · rw [if_pos hcl]
      rw [popN_ok _ _ hq']
      simp only [exceptBind_ok]
      rw [groupEvents_ok _ _ hall]
      simp [exceptBind_ok]

/-- Any closing group inside one token's event block is preceded (in
that block) by the opening event of its markable, unless the markable
was already on the stack before the token. -/
theorem closegrp_prefix (opens : List String) (s : String)
    (grps : List BrEv) (stack0 : List String)
    (hg : ∀ e ∈ grps, ∃ m cid, e = BrEv.closegrp m cid ∧
      (m ∈ opens ∨ m ∈ stack0)) :
    ∀ l m cid rr,
      opens.map BrEv.openm ++ [BrEv.tok s] ++ grps ++ [BrEv.sep] =
        l ++ BrEv.closegrp m cid :: rr →
      BrEv.openm m ∈ l ∨ m ∈ stack0 := by
  intro l m cid rr h
  have hmem : BrEv.closegrp m cid ∈
      opens.map BrEv.openm ++ [BrEv.tok s] ++ grps ++ [BrEv.sep] := by
    rw [h]
    simp
  have hmem' : BrEv.closegrp m cid ∈ grps := by
    rcases List.mem_append.1 hmem with h1 | h1
    · rcases List.mem_append.1 h1 with h2 | h2
      · rcases List.mem_append.1 h2 with h3 | h3
        · rcases List.mem_map.1 h3 with ⟨m', _, heq⟩
          exact absurd heq (by simp)
        · rcases List.mem_singleton.1 h3 with heq
          exact absurd heq (by simp)
      · exact h2
    · rcases List.mem_singleton.1 h1 with heq
      exact absurd heq (by simp)
  obtain ⟨m', cid', heq, hm'⟩ := hg _ hmem'
  have hmm : m = m' := by
    injection heq
  subst hmm
  rcases hm' with hmo | hms
  · left
    have h2 : opens.map BrEv.openm ++
        ([BrEv.tok s] ++ grps ++ [BrEv.sep]) =
        l ++ BrEv.closegrp m cid :: rr := by
      rw [← h]
      simp [List.append_assoc]
    rcases List.append_eq_append_iff.1 h2 with ⟨a, ha1, _⟩ | ⟨c', hc1, hc2⟩
    · rw [ha1]
      exact List.mem_append_left _ (List.mem_map.2 ⟨m, hmo, rfl⟩)
    · cases c' with
      | nil =>
        rw [List.nil_append] at hc2
        rw [show [BrEv.tok s] ++ grps ++ [BrEv.sep] =
          BrEv.tok s :: (grps ++ [BrEv.sep]) from by simp] at hc2
        exact absurd hc2 (by simp)
      | cons x xs =>
        have hx : x ∈ opens.map BrEv.openm := by
          rw [hc1]
          simp
        rcases List.mem_map.1 hx with ⟨m'', _, hm''⟩
        rw [List.cons_append] at hc2
        injection hc2 with h1 _
        rw [← h1] at hm''
        exact absurd hm'' (by simp)
  · exact Or.inr hms

/-- The predicate recognizing opening events. -/
def isOpenEv : BrEv → Bool
  | .openm _ => true
  | _ => false

/-- The predicate recognizing closing-group events. -/
def isCloseEv : BrEv → Bool
  | .closegrp _ _ => true
  | _ => false

/-- Main invariant of the scan: if the chain map covers all markables
in play and, on every prefix of the remaining tokens, the pops never
exceed the initial stack plus the pushes, then the scan succeeds; the
events contain one opening event per push and one closing-group event
per pop, every token event is a document surface, every closing group
is correctly chain-annotated, and every closing group is preceded by
its markable's opening event unless the markable was on the initial
stack. -/
theorem scanEvents_spec (g : DocGraph) (o c : String → List String)
    (m2c : String → Option String) :
    ∀ (ts : List String) (stack : List String),
    (∀ t ∈ ts, ∀ m ∈ o t, (m2c m).isSome) →
    (∀ m ∈ stack, (m2c m).isSome) →
    (∀ k, ((ts.take k).map (fun t => (c t).length)).sum ≤
      stack.length + ((ts.take k).map (fun t => (o t).length)).sum) →
    ∃ evs st',
      scanEvents g o c m2c ts stack = .ok (evs, st') ∧
      st'.length + (ts.map (fun t => (c t).length)).sum =
        stack.length + (ts.map (fun t => (o t).length)).sum ∧
      (∀ m ∈ st', m ∈ stack ∨ ∃ t ∈ ts, m ∈ o t) ∧
      evs.countP isOpenEv = (ts.map (fun t => (o t).length)).sum ∧
      evs.countP isCloseEv = (ts.map (fun t => (c t).length)).sum ∧
      (∀ s, .tok s ∈ evs → ∃ t ∈ ts, s = g.surface t) ∧
      (∀ m cid, .closegrp m cid ∈ evs → m2c m = some cid) ∧
      (∀ l m cid rr, evs = l ++ .closegrp m cid :: rr →
        .openm m ∈ l ∨ m ∈ stack) := by
  intro ts
  induction ts with
  | nil =>
    intro stack _ _ _
    refine ⟨[], stack, rfl, by simp, fun m hm => Or.inl hm, by simp, by simp,
      by simp, by simp, ?_⟩
    intro l m cid rr h
    exact absurd h.symm (by simp)
  | cons tid rest ih =>
    intro stack hm2cO hm2cS hbal
    have hq : (c tid).length ≤ stack.length + (o tid).length := by
      have := hbal 1
      simpa using this
    have hte := tokenEvents_spec g o c m2c tid stack
      (hm2cO tid (by simp)) hm2cS hq
    set taken := ((o tid).reverse ++ stack).take (c tid).length with htaken
    set stack2 := ((o tid).reverse ++ stack).drop (c tid).length with hstack2
    have hlen1 : ((o tid).reverse ++ stack).length =
        stack.length + (o tid).length := by
      simp only [List.length_append, List.length_reverse]
      omega
    have hlenstack2 : stack2.length + (c tid).length =
        stack.length + (o tid).length := by
      rw [hstack2, List.length_drop, hlen1]
      omega
    have htakenlen : taken.length = (c tid).length := by
      rw [htaken, List.length_take, hlen1]
      omega
    have hsub2 : ∀ m ∈ stack2, m ∈ o tid ∨ m ∈ stack := by
      intro m hm
      have := List.drop_subset _ _ (hstack2 ▸ hm)
      rcases List.mem_append.1 this with h1 | h1
      · exact Or.inl (List.mem_reverse.1 h1)
      · exact Or.inr h1
    have hsubt : ∀ m ∈ taken, m ∈ o tid ∨ m ∈ stack := by
      intro m hm
      have := List.take_subset _ _ (htaken ▸ hm)
      rcases List.mem_append.1 this with h1 | h1
      · exact Or.inl (List.mem_reverse.1 h1)
      · exact Or.inr h1
    have hm2cS2 : ∀ m ∈ stack2, (m2c m).isSome := by
      intro m hm
      rcases hsub2 m hm with h1 | h1
      · exact hm2cO tid (by simp) m h1
      · exact hm2cS m h1
    have hm2ct : ∀ m ∈ taken, (m2c m).isSome := by
      intro m hm
      rcases hsubt m hm with h1 | h1
      · exact hm2cO tid (by simp) m h1
      · exact hm2cS m h1
    have hbal2 : ∀ k, ((rest.take k).map (fun t => (c t).length)).sum ≤
        stack2.length + ((rest.take k).map (fun t => (o t).length)).sum := by
      intro k
      have := hbal (k + 1)
      simp only [List.take_succ_cons, List.map_cons, List.sum_cons] at this
      omega
    obtain ⟨evs2, st', hscan2, hlen2, hmem2, hcount2o, hcount2c, htok2,
      hchain2, hcorr2⟩ := ih stack2 (fun t ht => hm2cO t (by simp [ht]))
      hm2cS2 hbal2
    refine ⟨(o tid).map .openm ++ [.tok (g.surface tid)] ++
      taken.map (fun m => .closegrp m ((m2c m).getD "")) ++ [.sep] ++ evs2,
      st', ?_, ?_, ?_, ?_, ?_, ?_, ?_, ?_⟩
    · unfold scanEvents
      rw [hte]
      simp only [exceptBind_ok]
      rw [hscan2]
      simp only [exceptBind_ok]
    · simp only [List.map_cons, List.sum_cons]
      omega
    · intro m hm
      rcases hmem2 m hm with h1 | h1
      · rcases hsub2 m h1 with h2 | h2
        · exact Or.inr ⟨tid, by simp, h2⟩
        · exact Or.inl h2
      · rcases h1 with ⟨t, ht, hmt⟩
        exact Or.inr ⟨t, by simp [ht], hmt⟩
    · have hA : ((o tid).map BrEv.openm).countP isOpenEv = (o tid).length := by
        have h1 : ((o tid).map BrEv.openm).countP isOpenEv =
            ((o tid).map BrEv.openm).length :=
          List.countP_eq_length.2 (fun e he => by
            rcases List.mem_map.1 he with ⟨m, _, rfl⟩
            rfl)
        rw [h1, List.length_map]
      have hC : (taken.map (fun m =>
          BrEv.closegrp m ((m2c m).getD ""))).countP isOpenEv = 0 :=
        List.countP_eq_zero.2 (fun e he => by
          rcases List.mem_map.1 he with ⟨m, _, rfl⟩
          simp [isOpenEv])
      have hB : List.countP isOpenEv [BrEv.tok (g.surface tid)] = 0 := rfl
      have hD : List.countP isOpenEv [BrEv.sep] = 0 := rfl
      simp only [List.countP_append, hA, hB, hC, hD, hcount2o, List.map_cons,
        List.sum_cons]
      omega
    · have hC : (taken.map (fun m =>
          BrEv.closegrp m ((m2c m).getD ""))).countP isCloseEv =
          (c tid).length := by
        have h1 : (taken.map (fun m =>
            BrEv.closegrp m ((m2c m).getD ""))).countP isCloseEv =
            (taken.map (fun m => BrEv.closegrp m ((m2c m).getD ""))).length :=
          List.countP_eq_length.2 (fun e he => by
            rcases List.mem_map.1 he with ⟨m, _, rfl⟩
            rfl)
        rw [h1, List.length_map, htakenlen]
      have hA : ((o tid).map BrEv.openm).countP isCloseEv = 0 :=
        List.countP_eq_zero.2 (fun e he => by
          rcases List.mem_map.1 he with ⟨m, _, rfl⟩
          simp [isCloseEv])
      have hB : List.countP isCloseEv [BrEv.tok (g.surface tid)] = 0 := rfl
      have hD : List.countP isCloseEv [BrEv.sep] = 0 := rfl
      simp only [List.countP_append, hA, hB, hC, hD, hcount2c, List.map_cons,
        List.sum_cons]
      omega
    · intro s hs
      rcases List.mem_append.1 hs with h1 | h1
      · rcases List.mem_append.1 h1 with h2 | h2
        · rcases List.mem_append.1 h2 with h3 | h3
          · rcases List.mem_append.1 h3 with h4 | h4
            · rcases List.mem_map.1 h4 with ⟨m, _, heq⟩
              exact absurd heq (by simp)
            · rcases List.mem_singleton.1 h4 with heq
              injection heq with heq
              exact ⟨tid, by simp, heq⟩
          · rcases List.mem_map.1 h3 with ⟨m, _, heq⟩
            exact absurd heq (by simp)
        · rcases List.mem_singleton.1 h2 with heq
          exact absurd heq (by simp)
      · rcases htok2 s h1 with ⟨t, ht, hst⟩
        exact ⟨t, by simp [ht], hst⟩
    · intro m cid hm
      rcases List.mem_append.1 hm with h1 | h1
      · rcases List.mem_append.1 h1 with h2 | h2
        · rcases List.mem_append.1 h2 with h3 | h3
          · rcases List.mem_append.1 h3 with h4 | h4
            · rcases List.mem_map.1 h4 with ⟨m', _, heq⟩
              exact absurd heq (by simp)
            · rcases List.mem_singleton.1 h4 with heq
              exact absurd heq (by simp)
          · rcases List.mem_map.1 h3 with ⟨m', hm', heq⟩
            have hms := hm2ct m' hm'
            cases hx : m2c m' with
            | none => rw [hx] at hms; simp at hms
            | some v =>
              have h5 := heq
              injection h5 with h5a h5b
              rw [← h5a, ← h5b, hx]
              rfl
        · rcases List.mem_singleton.1 h2 with heq
          exact absurd heq (by simp)
      · exact hchain2 m cid h1
    · intro l m cid rr h
      have hg : ∀ e ∈ taken.map (fun m => BrEv.closegrp m ((m2c m).getD "")),
          ∃ m' cid', e = BrEv.closegrp m' cid' ∧ (m' ∈ o tid ∨ m' ∈ stack) := by
        intro e he
        rcases List.mem_map.1 he with ⟨m', hm', rfl⟩
        exact ⟨m', (m2c m').getD "", rfl, hsubt m' hm'⟩
      have h2 : ((o tid).map BrEv.openm ++ [BrEv.tok (g.surface tid)] ++
          taken.map (fun m => BrEv.closegrp m ((m2c m).getD "")) ++ [BrEv.sep]) ++
          evs2 = l ++ BrEv.closegrp m cid :: rr := by
        rw [← h]
      have hopen_in : m ∈ o tid → BrEv.openm m ∈
          (o tid).map BrEv.openm ++ [BrEv.tok (g.surface tid)] ++
          taken.map (fun m => BrEv.closegrp m ((m2c m).getD "")) ++ [BrEv.sep] := by
        intro hmo
        exact List.mem_append_left _ (List.mem_append_left _
          (List.mem_append_left _ (List.mem_map.2 ⟨m, hmo, rfl⟩)))
      rcases List.append_eq_append_iff.1 h2 with ⟨a, ha1, ha2⟩ | ⟨c', hc1, hc2⟩
      · rcases hcorr2 a m cid rr ha2 with h3 | h3
        · exact Or.inl (by rw [ha1]; exact List.mem_append_right _ h3)
        · rcases hsub2 m h3 with h4 | h4
          · exact Or.inl (by rw [ha1]; exact List.mem_append_left _ (hopen_in h4))
          · exact Or.inr h4
      · cases c' with
        | nil =>
          rw [List.nil_append] at hc2
          rcases hcorr2 [] m cid rr (by rw [← hc2]; rfl) with h3 | h3
          · simp at h3
          · rcases hsub2 m h3 with h4 | h4
            · refine Or.inl ?_
              rw [show l = (o tid).map BrEv.openm ++
                [BrEv.tok (g.surface tid)] ++
                taken.map (fun m => BrEv.closegrp m ((m2c m).getD "")) ++
                [BrEv.sep] from by rw [hc1, List.append_nil]]
              exact hopen_in h4
            · exact Or.inr h4
        | cons x xs =>
          rw [List.cons_append] at hc2
          have hx : x = BrEv.closegrp m cid := by
            injection hc2 with h5 _
            exact h5.symm
          subst hx
          have hxs : rr = xs ++ evs2 := by
            injection hc2
          exact closegrp_prefix (o tid) (g.surface tid)
            (taken.map (fun m => BrEv.closegrp m ((m2c m).getD ""))) stack hg
            l m cid xs hc1

theorem renderEvs_cons (e : BrEv) (evs : List BrEv) :
    renderEvs (e :: evs) = renderEv e ++ renderEvs evs := by
  unfold renderEvs
  rw [List.map_cons, stringJoin_cons]

theorem countChar_append (ch : Char) (a b : String) :
    countChar ch (a ++ b) = countChar ch a + countChar ch b := by
  unfold countChar
  show ((a ++ b).data).count ch = _
  rw [String.data_append, List.count_append]
  rfl

/-- Character counts of the rendered events: one `[` per opening
event and one `]` per closing group, provided token surfaces and
chain ids are bracket-free. -/
theorem countChar_renderEvs (evs : List BrEv)
    (htok : ∀ s, .tok s ∈ evs → '[' ∉ s.toList ∧ ']' ∉ s.toList)
    (hcid : ∀ m cid, .closegrp m cid ∈ evs →
      '[' ∉ cid.toList ∧ ']' ∉ cid.toList) :
    countChar '[' (renderEvs evs) = evs.countP isOpenEv ∧
    countChar ']' (renderEvs evs) = evs.countP isCloseEv := by
  induction evs with
  | nil => exact ⟨rfl, rfl⟩
  | cons e evs' ih =>
    obtain ⟨ih1, ih2⟩ := ih (fun s hs => htok s (by simp [hs]))
      (fun m cid hm => hcid m cid (by simp [hm]))
    rw [renderEvs_cons]
    rw [countChar_append, countChar_append, ih1, ih2,
      List.countP_cons, List.countP_cons]
    cases e with
    | tok s =>
      obtain ⟨h1, h2⟩ := htok s (by simp)
      have c1 : countChar '[' (renderEv (.tok s)) = 0 :=
        List.count_eq_zero.2 h1
      have c2 : countChar ']' (renderEv (.tok s)) = 0 :=
        List.count_eq_zero.2 h2
      rw [c1, c2]
      simp [isOpenEv, isCloseEv]
    | openm m =>
      have c1 : countChar '[' (renderEv (.openm m)) = 1 := rfl
      have c2 : countChar ']' (renderEv (.openm m)) = 0 := rfl
      rw [c1, c2]
      simp [isOpenEv, isCloseEv]
      omega
    | closegrp m cid =>
      obtain ⟨h1, h2⟩ := hcid m cid (by simp)
      have hdata : (renderEv (.closegrp m cid)).toList =
          "]_\x7b".toList ++ cid.toList ++ "\x7d".toList := by
        show (("]_\x7b" ++ cid ++ "\x7d").data) = _
        rw [String.data_append, String.data_append]
        rfl
      have c1 : countChar '[' (renderEv (.closegrp m cid)) = 0 := by
        unfold countChar
        rw [hdata, List.count_append, List.count_append]
        rw [List.count_eq_zero.2 h1]
        decide
      have c2 : countChar ']' (renderEv (.closegrp m cid)) = 1 := by
        unfold countChar
        rw [hdata, List.count_append, List.count_append]
        rw [List.count_eq_zero.2 h2]
        decide
      rw [c1, c2]
      simp [isOpenEv, isCloseEv]
      omega
    | sep =>
      have c1 : countChar '[' (renderEv .sep) = 0 := rfl
      have c2 : countChar ']' (renderEv .sep) = 0 := rfl
      rw [c1, c2]
      simp [isOpenEv, isCloseEv]

theorem sum_map_add (P : List String) (f g : String → Nat) :
    (P.map (fun t => f t + g t)).sum = (P.map f).sum + (P.map g).sum := by
  induction P with
  | nil => rfl
  | cons t ts ih =>
    simp only [List.map_cons, List.sum_cons, ih]
    omega

theorem sum_indicator (P : List String) (a : String) (hP : P.Nodup) :
    (P.map (fun t => if a = t then 1 else 0)).sum =
      if a ∈ P then 1 else 0 := by
  induction P with
  | nil => rfl
  | cons t ts ih =>
    have hts : ts.Nodup := hP.of_cons
    simp only [List.map_cons, List.sum_cons, ih hts]
    by_cases hat : a = t
    · subst hat
      have hnot : a ∉ ts := (List.nodup_cons.1 hP).1
      rw [if_pos rfl, if_neg hnot, if_pos (List.mem_cons_self a ts)]
    · rw [if_neg hat]
      by_cases hmem : a ∈ ts
      · rw [if_pos hmem, if_pos (List.mem_cons_of_mem t hmem)]
      · rw [if_neg hmem, if_neg (by simp [hat, hmem])]

/-- Summing, over a duplicate-free token list, the number of markables
anchored at each token counts exactly the markables anchored anywhere
in the list. -/
theorem sum_anchor_counts (P ms : List String) (f : String → Option String)
    (hP : P.Nodup) :
    (P.map (fun t => (ms.filter (fun m => f m = some t)).length)).sum =
      (ms.filter (fun m => (f m).any (fun a => a ∈ P))).length := by
  induction ms with
  | nil =>
    simp
  | cons m ms' ih =>
    have hstep : ∀ t : String,
        (List.filter (fun m2 => f m2 = some t) (m :: ms')).length =
          (if f m = some t then 1 else 0) +
          (List.filter (fun m2 => f m2 = some t) ms').length := by
      intro t
      rw [List.filter_cons]
      by_cases hft : f m = some t
      · simp [hft]
        omega
      · simp [hft]
    have hmap : (P.map (fun t =>
        (List.filter (fun m2 => f m2 = some t) (m :: ms')).length)) =
        (P.map (fun t => (if f m = some t then 1 else 0) +
          (List.filter (fun m2 => f m2 = some t) ms').length)) :=
      List.map_congr_left (fun t _ => hstep t)
    rw [hmap, sum_map_add, ih]
    rw [List.filter_cons]
    cases hfm : f m with
    | none =>
      have hz : (P.map (fun t =>
          if (none : Option String) = some t then 1 else 0)).sum = 0 := by
        have hall : ∀ t ∈ P,
            (if (none : Option String) = some t then 1 else 0) = 0 := by
          intro t _
          simp
        rw [List.map_congr_left hall]
        simp
      rw [hz]
      simp [Option.any]
    | some a =>
      simp only [Option.some.injEq]
      rw [sum_indicator P a hP]
      simp only [Option.any]
      by_cases hmem : a ∈ P
      · simp [hmem]
        omega
      · simp [hmem]

theorem length_filter_mono (ms : List String) (p q : String → Bool)
    (h : ∀ m ∈ ms, p m = true → q m = true) :
    (ms.filter p).length ≤ (ms.filter q).length := by
  induction ms with
  | nil => exact le_refl _
  | cons m ms' ih =>
    have ih' := ih (fun m2 h2 => h m2 (by simp [h2]))
    rw [List.filter_cons, List.filter_cons]
    by_cases hp : p m = true
    · rw [hp, h m (by simp) hp]
      simpa using ih'
    · simp only [Bool.not_eq_true] at hp
      rw [hp]
      simp only [Bool.false_eq_true, if_false]
      by_cases hq : q m = true
      · rw [hq]
        simp only [if_true]
        simp only [List.length_cons]
        omega
      · simp only [Bool.not_eq_true] at hq
        rw [hq]
        simp only [Bool.false_eq_true, if_false]
        exact ih'

/-- Unpacking `anchorsOkB`: the span is non-empty and its first/last
stored tokens are document tokens in the right order. -/
theorem anchorsOkB_spec (g : DocGraph) (m : String)
    (h : anchorsOkB g m = true) :
    ∃ a b, (g.span m).head? = some a ∧ (g.span m).getLast? = some b ∧
      a ∈ g.tokens ∧ b ∈ g.tokens ∧
      g.tokens.indexOf a ≤ g.tokens.indexOf b := by
  unfold anchorsOkB at h
  cases hh : (g.span m).head? with
  | none => rw [hh] at h; simp at h
  | some a =>
    cases hl : (g.span m).getLast? with
    | none => rw [hh, hl] at h; simp at h
    | some b =>
      rw [hh, hl] at h
      simp only [Bool.and_eq_true, decide_eq_true_eq] at h
      exact ⟨a, b, rfl, rfl, h.1.1, h.1.2, h.2⟩

/-- A markable with well-formed anchors has a non-empty span. -/
theorem anchorsOkB_span_ne (g : DocGraph) (m : String)
    (h : anchorsOkB g m = true) : g.span m ≠ [] := by
  obtain ⟨a, _, ha, _, _, _, _⟩ := anchorsOkB_spec g m h
  intro hsp
  rw [hsp] at ha
  exact Option.noConfusion ha

/-- On every prefix of the token sequence, at least as many markables
open as close (each markable's closing anchor is not before its
opening anchor). -/
theorem wellNested_balance (g : DocGraph) (hwn : WellNested g) :
    ∀ k, ((g.tokens.take k).map (fun t => (closingMap g t).length)).sum ≤
      ((g.tokens.take k).map (fun t => (openingMap g t).length)).sum := by
  obtain ⟨hnd, _, hanch, _⟩ := hwn
  intro k
  have hPnd : (g.tokens.take k).Nodup :=
    (List.take_sublist k g.tokens).nodup hnd
  unfold closingMap openingMap
  rw [sum_anchor_counts (g.tokens.take k) (markablesSorted g)
      (fun m => (g.span m).getLast?) hPnd,
    sum_anchor_counts (g.tokens.take k) (markablesSorted g)
      (fun m => (g.span m).head?) hPnd]
  apply length_filter_mono
  intro m hm hcl
  have hmem : m ∈ g.pointingChains.flatten :=
    (List.perm_insertionSort natLe g.pointingChains.flatten).mem_iff.1 hm
  obtain ⟨a, b, ha, hb, hat, hbt, hab⟩ := anchorsOkB_spec g m (hanch m hmem)
  rw [hb] at hcl
  simp only [Option.any, decide_eq_true_eq] at hcl
  have hbidx : g.tokens.indexOf b < k := indexOf_lt_of_mem_take _ _ _ hcl
  have hamem : a ∈ g.tokens.take k :=
    mem_take_of_indexOf_lt _ _ _ hat (by omega)
  rw [ha]
  simp only [Option.any, decide_eq_true_eq]
  exact hamem

/-- Over the whole token sequence, every markable opens exactly once
and closes exactly once. -/
theorem wellNested_totals (g : DocGraph) (hwn : WellNested g) :
    ((g.tokens.map (fun t => (openingMap g t).length)).sum =
      (markablesSorted g).length) ∧
    ((g.tokens.map (fun t => (closingMap g t).length)).sum =
      (markablesSorted g).length) := by
  obtain ⟨hnd, _, hanch, _⟩ := hwn
  constructor
  · unfold openingMap
    rw [sum_anchor_counts g.tokens (markablesSorted g)
      (fun m => (g.span m).head?) hnd]
    rw [List.filter_eq_self.2]
    intro m hm
    have hmem : m ∈ g.pointingChains.flatten :=
      (List.perm_insertionSort natLe g.pointingChains.flatten).mem_iff.1 hm
    obtain ⟨a, b, ha, hb, hat, _, _⟩ := anchorsOkB_spec g m (hanch m hmem)
    rw [ha]
    simp only [Option.any, decide_eq_true_eq]
    exact hat
  · unfold closingMap
    rw [sum_anchor_counts g.tokens (markablesSorted g)
      (fun m => (g.span m).getLast?) hnd]
    rw [List.filter_eq_self.2]
    intro m hm
    have hmem : m ∈ g.pointingChains.flatten :=
      (List.perm_insertionSort natLe g.pointingChains.flatten).mem_iff.1 hm
    obtain ⟨a, b, ha, hb, _, hbt, _⟩ := anchorsOkB_spec g m (hanch m hmem)
    rw [hb]
    simp only [Option.any, decide_eq_true_eq]
    exact hbt

/-- C5: for a document graph whose markables are all well-nested and
non-crossing (with bracket-free token surfaces and identifiers),
`gen_bracketed_output` succeeds, and in the returned string the number
of `[` characters equals the number of `]_{…}` closing groups (each
closing group contributing exactly one `]`); moreover, in the event
decomposition of the output, every closing group is preceded by the
opening event of its markable, and its annotation is that markable's
chain id. -/
theorem gen_bracketed_output_balanced (g : DocGraph)
    (hwn : WellNested g) (hbf : BracketFree g) :
    ∃ out o c m2c evs st',
      gen_bracketed_output g = .ok out ∧
      gen_bracket_mappings g = .ok (o, c, m2c) ∧
      scanEvents g o c m2c g.tokens [] = .ok (evs, st') ∧
      out = renderEvs evs ∧
      countChar '[' out = evs.countP isOpenEv ∧
      countChar ']' out = evs.countP isCloseEv ∧
      countChar '[' out = countChar ']' out ∧
      (∀ l m cid rr, evs = l ++ BrEv.closegrp m cid :: rr →
        BrEv.openm m ∈ l ∧ m2c m = some cid) := by
  have hwn' := hwn
  obtain ⟨hnd, hch, hanch, hnc⟩ := hwn'
  have hsp : ∀ m ∈ g.pointingChains.flatten, g.span m ≠ [] :=
    fun m hm => anchorsOkB_span_ne g m (hanch m hm)
  obtain ⟨m2c, hmap, hcov, hrange⟩ := gen_bracket_mappings_ok g hch hsp
  have hm2cO : ∀ t ∈ g.tokens, ∀ m ∈ openingMap g t, (m2c m).isSome := by
    intro t _ m hm
    have : m ∈ markablesSorted g := List.mem_of_mem_filter hm
    exact hcov m
      ((List.perm_insertionSort natLe g.pointingChains.flatten).mem_iff.1 this)
  have hm2cS : ∀ m ∈ ([] : List String), (m2c m).isSome := by
    intro m hm
    simp at hm
  have hbal : ∀ k,
      ((g.tokens.take k).map (fun t => (closingMap g t).length)).sum ≤
      ([] : List String).length +
        ((g.tokens.take k).map (fun t => (openingMap g t).length)).sum := by
    intro k
    have := wellNested_balance g hwn k
    simpa using this
  obtain ⟨evs, st', hscan, _, _, hcnto, hcntc, htokstr, hchain, hcorr⟩ :=
    scanEvents_spec g (openingMap g) (closingMap g) m2c g.tokens []
      hm2cO hm2cS hbal
  have hout : gen_bracketed_output g = .ok (renderEvs evs) := by
    unfold gen_bracketed_output
    rw [hmap]
    simp only [exceptBind_ok]
    rw [scanTokens_eq_scanEvents, hscan]
    simp only [Except.map, exceptBind_ok]
  have htokfree : ∀ s, BrEv.tok s ∈ evs →
      '[' ∉ s.toList ∧ ']' ∉ s.toList := by
    intro s hs
    obtain ⟨t, ht, rfl⟩ := htokstr s hs
    exact hbf.1 t ht
  have hcidfree : ∀ m cid, BrEv.closegrp m cid ∈ evs →
      '[' ∉ cid.toList ∧ ']' ∉ cid.toList := by
    intro m cid hm
    exact hbf.2 cid (hrange m cid (hchain m cid hm))
  obtain ⟨hc1, hc2⟩ := countChar_renderEvs evs htokfree hcidfree
  obtain ⟨hto, htc⟩ := wellNested_totals g hwn
  refine ⟨renderEvs evs, openingMap g, closingMap g, m2c, evs, st',
    hout, hmap, hscan, rfl, hc1, hc2, ?_, ?_⟩
  · rw [hc1, hc2, hcnto, hcntc, hto, htc]
  · intro l m cid rr h
    have hmem : BrEv.closegrp m cid ∈ evs := by
      rw [h]
      simp
    rcases hcorr l m cid rr h with h1 | h1
    · exact ⟨h1, hchain m cid hmem⟩
    · simp at h1

/-- A concrete well-nested document: markable `m2` (span `t2`) nested
inside markable `m1` (span `t1 t2 t3`), both in one chain. -/
def gNest : DocGraph :=
  { tokens := ["t1", "t2", "t3"],
    surface := fun t =>
      if t = "t1" then "Die" else if t = "t2" then "neue" else "Halle",
    pointingChains := [["m1", "m2"]],
    span := fun m =>
      if m = "m1" then ["t1", "t2", "t3"] else
      if m = "m2" then ["t2"] else [] }

/-- Witness for C5 at the concrete graph `gNest`. -/
theorem gen_bracketed_output_balanced_witness :
    WellNested gNest ∧ BracketFree gNest ∧
    ∃ out o c m2c evs st',
      gen_bracketed_output gNest = .ok out ∧
      gen_bracket_mappings gNest = .ok (o, c, m2c) ∧
      scanEvents gNest o c m2c gNest.tokens [] = .ok (evs, st') ∧
      out = renderEvs evs ∧
      countChar '[' out = evs.countP isOpenEv ∧
      countChar ']' out = evs.countP isCloseEv ∧
      countChar '[' out = countChar ']' out ∧
      (∀ l m cid rr, evs = l ++ BrEv.closegrp m cid :: rr →
        BrEv.openm m ∈ l ∧ m2c m = some cid) :=
  ⟨by decide, by decide,
    gen_bracketed_output_balanced gNest (by decide) (by decide)⟩
